import Mathlib

/-!
Verification of the transcript acquisition resilience engine of
`youtube-intel-scan` against its natural-language specification.

Each definition is a shallow embedding of a function from the repository
(`src/server/routes.ts`, `src/client/src/lib/transcriptFetcher.ts`),
keeping the source's names and structure.  Machine time is modelled as
`Nat` milliseconds, JS numbers used for delays as `ℚ`, and fallible
operations as `Option`/`Except`.
-/

set_option maxRecDepth 10000

namespace YtIntel

/-! ## Data model: caption tracks (routes.ts lines 1046-1052) -/

/-- The `name` field of a caption track, an object with a `simpleText` field. -/
structure TrackName where
  simpleText : String
deriving DecidableEq

/-- A caption track as consumed from the page payload.  `kind = some "asr"`
marks machine-generated (speech-recognition) captions. -/
structure CaptionTrack where
  baseUrl : String
  name : TrackName
  languageCode : String
  isTranslatable : Bool
  kind : Option String
deriving DecidableEq

/-- JS `String.prototype.startsWith`, embedded over the character list so
that it evaluates by kernel reduction. -/
def strStartsWith (s pre : String) : Bool := pre.data.isPrefixOf s.data

/-! ## Track Selector (routes.ts `selectBestCaptionTrack`, lines 1125-1148;
identical copy in transcriptFetcher.ts lines 272-295) -/

/-- First loop of the source: for each preferred language in order, find the
first manual (non-asr) track whose language code starts with it. -/
def findManualTrack (tracks : List CaptionTrack) : List String → Option CaptionTrack
  | [] => none
  | lang :: rest =>
    match tracks.find? (fun t => strStartsWith t.languageCode lang && !(t.kind == some "asr")) with
    | some t => some t
    | none => findManualTrack tracks rest

/-- Second loop of the source: auto-generated tracks in preferred languages. -/
def findAutoTrack (tracks : List CaptionTrack) : List String → Option CaptionTrack
  | [] => none
  | lang :: rest =>
    match tracks.find? (fun t => strStartsWith t.languageCode lang && t.kind == some "asr") with
    | some t => some t
    | none => findAutoTrack tracks rest

/-- `selectBestCaptionTrack` from the source: manual preferred, then auto
preferred, then any manual, then the first track, else none. -/
def selectBestCaptionTrack (tracks : List CaptionTrack) (preferredLanguages : List String) :
    Option CaptionTrack :=
  match findManualTrack tracks preferredLanguages with
  | some t => some t
  | none =>
    match findAutoTrack tracks preferredLanguages with
    | some t => some t
    | none =>
      match tracks.find? (fun t => !(t.kind == some "asr")) with
      | some t => some t
      | none => tracks.head?

/-- Selector policy as worded in the spec: first match of the four
precedence rules, evaluated in order.  Used to state the refinement. -/
def selectorSpec (tracks : List CaptionTrack) (prefs : List String) : Option CaptionTrack :=
  let rule1 := prefs.findSome? (fun lang =>
    tracks.find? (fun t => strStartsWith t.languageCode lang && !(t.kind == some "asr")))
  let rule2 := prefs.findSome? (fun lang =>
    tracks.find? (fun t => strStartsWith t.languageCode lang && t.kind == some "asr"))
  let rule3 := tracks.find? (fun t => !(t.kind == some "asr"))
  ((rule1.orElse (fun _ => rule2)).orElse (fun _ => rule3)).orElse (fun _ => tracks.head?)

lemma findManualTrack_eq_findSome (tracks : List CaptionTrack) (prefs : List String) :
    findManualTrack tracks prefs = prefs.findSome? (fun lang =>
      tracks.find? (fun t => strStartsWith t.languageCode lang && !(t.kind == some "asr"))) := by
  induction prefs with
  | nil => rfl
  | cons lang rest ih =>
    simp only [findManualTrack, List.findSome?_cons]
    cases tracks.find? (fun t => strStartsWith t.languageCode lang && !(t.kind == some "asr")) with
    | none => simpa using ih
    | some t => rfl

lemma findAutoTrack_eq_findSome (tracks : List CaptionTrack) (prefs : List String) :
    findAutoTrack tracks prefs = prefs.findSome? (fun lang =>
      tracks.find? (fun t => strStartsWith t.languageCode lang && t.kind == some "asr")) := by
  induction prefs with
  | nil => rfl
  | cons lang rest ih =>
    simp only [findAutoTrack, List.findSome?_cons]
    cases tracks.find? (fun t => strStartsWith t.languageCode lang && t.kind == some "asr") with
    | none => simpa using ih
    | some t => rfl

lemma findManualTrack_isSome_of_mem {tracks : List CaptionTrack} {prefs : List String}
    {t0 : CaptionTrack} {lang : String} (hmem : t0 ∈ tracks) (hlang : lang ∈ prefs)
    (hpre : strStartsWith t0.languageCode lang = true) (hman : ¬(t0.kind = some "asr")) :
    (findManualTrack tracks prefs).isSome := by
  induction prefs with
  | nil => cases hlang
  | cons l rest ih =>
    rw [findManualTrack]
    rcases List.mem_cons.mp hlang with h | h
    · subst h
      have hex : (tracks.find? (fun t => strStartsWith t.languageCode lang
          && !(t.kind == some "asr"))).isSome := by
        rw [List.find?_isSome]
        exact ⟨t0, hmem, by simp [hpre, hman]⟩
      rcases Option.isSome_iff_exists.mp hex with ⟨t, ht⟩
      rw [ht]
      rfl
    · cases hfind : tracks.find? (fun t => strStartsWith t.languageCode l && !(t.kind == some "asr")) with
      | some t => rfl
      | none => exact ih h

lemma findManualTrack_some_not_asr {tracks : List CaptionTrack} {prefs : List String}
    {t : CaptionTrack} (h : findManualTrack tracks prefs = some t) :
    t.kind ≠ some "asr" := by
  induction prefs with
  | nil => cases h
  | cons l rest ih =>
    rw [findManualTrack] at h
    cases hfind : tracks.find? (fun t => strStartsWith t.languageCode l && !(t.kind == some "asr")) with
    | some u =>
      rw [hfind] at h
      cases h
      have := List.find?_some hfind
      simp at this
      exact this.2
    | none =>
      rw [hfind] at h
      exact ih h

/-- C2.  The Track Selector returns the first match of the spec's four-step
precedence; it returns `none` exactly on the empty track list; and whenever a
non-generated track matching some preferred language exists, the selected
track is never generated. -/
theorem C2_selector_precedence (tracks : List CaptionTrack) (prefs : List String) :
    selectBestCaptionTrack tracks prefs = selectorSpec tracks prefs
    ∧ (selectBestCaptionTrack tracks prefs = none ↔ tracks = [])
    ∧ (∀ t0 ∈ tracks, ∀ lang ∈ prefs, strStartsWith t0.languageCode lang = true →
        ¬(t0.kind = some "asr") →
        ∀ r, selectBestCaptionTrack tracks prefs = some r → r.kind ≠ some "asr") := by
  refine ⟨?_, ?_, ?_⟩
  · unfold selectBestCaptionTrack selectorSpec
    rw [findManualTrack_eq_findSome, findAutoTrack_eq_findSome]
    cases prefs.findSome? (fun lang =>
        tracks.find? (fun t => strStartsWith t.languageCode lang && !(t.kind == some "asr"))) with
    | some t => rfl
    | none =>
      cases prefs.findSome? (fun lang =>
          tracks.find? (fun t => strStartsWith t.languageCode lang && t.kind == some "asr")) with
      | some t => rfl
      | none =>
        cases tracks.find? (fun t => !(t.kind == some "asr")) with
        | some t => rfl
        | none => rfl
  · constructor
    · intro h
      unfold selectBestCaptionTrack at h
      cases h1 : findManualTrack tracks prefs with
      | some t => rw [h1] at h; cases h
      | none =>
        rw [h1] at h
        cases h2 : findAutoTrack tracks prefs with
        | some t => rw [h2] at h; cases h
        | none =>
          rw [h2] at h
          cases h3 : tracks.find? (fun t => !(t.kind == some "asr")) with
          | some t => rw [h3] at h; cases h
          | none =>
            rw [h3] at h
            cases tracks with
            | nil => rfl
            | cons a l => cases h
    · intro h
      subst h
      have h1 : ∀ ps : List String, findManualTrack [] ps = none := by
        intro ps
        induction ps with
        | nil => rfl
        | cons a l ih => simpa [findManualTrack] using ih
      have h2 : ∀ ps : List String, findAutoTrack [] ps = none := by
        intro ps
        induction ps with
        | nil => rfl
        | cons a l ih => simpa [findAutoTrack] using ih
      simp [selectBestCaptionTrack, h1, h2]
  · intro t0 hmem lang hlang hpre hman r hr
    have hsome := findManualTrack_isSome_of_mem hmem hlang hpre hman
    rcases Option.isSome_iff_exists.mp hsome with ⟨t, ht⟩
    unfold selectBestCaptionTrack at hr
    rw [ht] at hr
    cases hr
    exact findManualTrack_some_not_asr ht

/-- Concrete manual English track used in the C2 witness. -/
def trackEnManual : CaptionTrack :=
  { baseUrl := "https://example.invalid/en", name := ⟨"English"⟩,
    languageCode := "en-US", isTranslatable := true, kind := none }

/-- Concrete auto-generated Spanish track used in the C2 witness. -/
def trackEsAsr : CaptionTrack :=
  { baseUrl := "https://example.invalid/es", name := ⟨"Spanish (auto-generated)"⟩,
    languageCode := "es", isTranslatable := true, kind := some "asr" }

/-- Witness for C2: with one manual English track and one generated Spanish
track and preference `["en"]`, the selector picks a non-generated track. -/
theorem C2_selector_precedence_witness :
    ∃ r, selectBestCaptionTrack [trackEnManual, trackEsAsr] ["en"] = some r
      ∧ r.kind ≠ some "asr" := by
  have h := (C2_selector_precedence [trackEnManual, trackEsAsr] ["en"]).2.2
    trackEnManual (by simp) "en" (by simp) (by decide) (by decide)
  refine ⟨trackEnManual, by decide, ?_⟩
  exact h trackEnManual (by decide)

/-! ## Transport Strategy Chain
(transcriptFetcher.ts `fetchTranscriptWithFallbacks`, lines 473-497).
Each method's outcome is modelled as an `Except`; the loop keeps the last
error and advances on every failure, returning the first success.  The final
`throw lastError || Error(...)` is modelled by `Except (Option ε)`, where
`none` is the generic "All transcript fetch methods failed" error. -/

/-- Failure kinds from the spec's error taxonomy (§7). -/
inductive FailKind where
  | noCaptionsFound
  | languageUnavailable
  | transportBlocked
  | rateLimited
  | transientNetwork
  | malformedResponse
deriving DecidableEq

/-- The loop body of `fetchTranscriptWithFallbacks`: try each method in
order, remembering the last error; a success returns immediately. -/
def chainRun {ε α : Type} : List (Except ε α) → Option ε → Except (Option ε) α
  | [], last => Except.error last
  | m :: rest, last =>
    match m with
    | Except.ok r => Except.ok r
    | Except.error e => chainRun rest (some e)

/-- `fetchTranscriptWithFallbacks` from the source: run the declared method
list with no error recorded yet. -/
def fetchTranscriptWithFallbacks {ε α : Type} (methods : List (Except ε α)) :
    Except (Option ε) α :=
  chainRun methods none

lemma chainRun_all_errors_ok {ε α : Type} (pre : List (Except ε α)) (r : α)
    (rest : List (Except ε α)) (acc : Option ε)
    (h : ∀ m ∈ pre, ∃ e, m = Except.error e) :
    chainRun (pre ++ Except.ok r :: rest) acc = Except.ok r := by
  induction pre generalizing acc with
  | nil => rfl
  | cons m pre ih =>
    rcases h m (List.mem_cons_self m pre) with ⟨e, he⟩
    subst he
    exact ih _ (fun m hm => h m (List.mem_cons_of_mem _ hm))

lemma chainRun_map_error {ε α : Type} (es : List ε) (acc : Option ε) :
    chainRun (α := α) (es.map Except.error) acc
      = Except.error (es.getLast?.elim acc some) := by
  induction es generalizing acc with
  | nil => rfl
  | cons e es ih =>
    rw [List.map_cons, chainRun, ih (some e)]
    cases es with
    | nil => rfl
    | cons b t => rw [List.getLast?_cons_cons]; rfl

/-- C1 counterexample.  A chain whose first strategy fails with the terminal
kind `NoCaptionsFound` does not short-circuit: the second strategy's success
is returned, not the terminal failure the claim predicts. -/
theorem C1_counterexample :
    fetchTranscriptWithFallbacks
        [Except.error FailKind.noCaptionsFound, Except.ok (42 : Nat)] = Except.ok 42
    ∧ (Except.ok 42 : Except (Option FailKind) Nat)
        ≠ Except.error (some FailKind.noCaptionsFound) := by
  exact ⟨rfl, by simp⟩

/-- C1 (amended).  The Transport Strategy Chain treats every failure kind the
same: any strategy failure, terminal kinds included, advances the chain to
the next strategy in declared order; the first success short-circuits
immediately and the chain returns that strategy's result; when every
strategy fails the chain returns the last failure (or the generic all-failed
error on an empty chain). -/
theorem C1_chain_failures_advance {ε α : Type} :
    (∀ (pre : List (Except ε α)) (r : α) (rest : List (Except ε α)),
       (∀ m ∈ pre, ∃ e, m = Except.error e) →
       fetchTranscriptWithFallbacks (pre ++ Except.ok r :: rest) = Except.ok r)
    ∧ (∀ es : List ε,
       fetchTranscriptWithFallbacks (α := α) (es.map Except.error)
         = Except.error es.getLast?) := by
  constructor
  · intro pre r rest h
    exact chainRun_all_errors_ok pre r rest none h
  · intro es
    rw [fetchTranscriptWithFallbacks, chainRun_map_error]
    cases h : es.getLast? with
    | none => rfl
    | some e => rfl

/-- Witness for C1: a chain whose first strategy fails with
`LanguageUnavailable` returns the second strategy's success. -/
theorem C1_chain_failures_advance_witness :
    fetchTranscriptWithFallbacks
        [Except.error FailKind.languageUnavailable, Except.ok (7 : Nat)] = Except.ok 7 := by
  exact (C1_chain_failures_advance (ε := FailKind) (α := Nat)).1
    [Except.error FailKind.languageUnavailable] 7 []
    (by intro m hm; simp at hm; exact ⟨_, hm⟩)

/-! ## Retry/Backoff Controller (transcriptFetcher.ts `getRetryDelay`,
lines 70-75).  `Math.random()` is modelled as a parameter `rand ∈ [0,1)`;
JS numbers as `ℚ`. -/

/-- `RATE_LIMIT.baseRetryDelay` (3 seconds). -/
def baseRetryDelay : ℚ := 3000

/-- `RATE_LIMIT.maxRetryDelay` (30 seconds). -/
def maxRetryDelay : ℚ := 30000

/-- `getRetryDelay` from the source:
`delay = base * 2^attempt; jitter = delay * 0.2 * (random - 0.5);
min(delay + jitter, maxRetryDelay)`. -/
def getRetryDelay (attempt : Nat) (rand : ℚ) : ℚ :=
  let delay := baseRetryDelay * 2 ^ attempt
  let jitter := delay * (2/10) * (rand - 1/2)
  min (delay + jitter) maxRetryDelay

/-- C7.  The jitter the code applies has magnitude at most 10% of the
computed delay, not the ±20% the claim (and the code's own comment) state:
at `attempt = 0` and the jitter extreme `rand = 0` the wait is 2700 ms
(= 0.9·base), and for every `rand ∈ [0,1)` the wait stays in
`[0.9·delay, 1.1·delay)` intersected with the cap — never reaching the
±20% extremes 0.8·delay or 1.2·delay. -/
theorem C7_jitter_is_ten_percent :
    getRetryDelay 0 0 = 2700
    ∧ (∀ (a : Nat) (r : ℚ), 0 ≤ r → r < 1 →
        min ((baseRetryDelay * 2 ^ a) * (9/10)) maxRetryDelay ≤ getRetryDelay a r
        ∧ getRetryDelay a r < (baseRetryDelay * 2 ^ a) * (11/10)) := by
  constructor
  · norm_num [getRetryDelay, baseRetryDelay, maxRetryDelay]
  · intro a r h0 h1
    have hd : (0 : ℚ) < baseRetryDelay * 2 ^ a := by
      have : (0 : ℚ) < 2 ^ a := pow_pos (by norm_num) a
      rw [baseRetryDelay]
      positivity
    set d : ℚ := baseRetryDelay * 2 ^ a with hdd
    have hjlo : d * (9/10) ≤ d + d * (2/10) * (r - 1/2) := by nlinarith
    have hjhi : d + d * (2/10) * (r - 1/2) < d * (11/10) := by nlinarith
    constructor
    · rw [getRetryDelay]
      simp only [← hdd]
      rw [maxRetryDelay] at *
      rcases le_total (d + d * (2/10) * (r - 1/2)) 30000 with hc | hc
      · rw [min_eq_left hc]
        exact le_trans (min_le_left _ _) hjlo
      · rw [min_eq_right hc]
        exact min_le_right _ _
    · rw [getRetryDelay]
      simp only [← hdd]
      exact lt_of_le_of_lt (min_le_left _ _) hjhi

/-- Witness for C7: the bound instantiated at `attempt = 0`, `rand = 1/2`. -/
theorem C7_jitter_is_ten_percent_witness :
    min ((baseRetryDelay * 2 ^ 0) * (9/10)) maxRetryDelay ≤ getRetryDelay 0 (1/2)
    ∧ getRetryDelay 0 (1/2) < (baseRetryDelay * 2 ^ 0) * (11/10) := by
  exact C7_jitter_is_ten_percent.2 0 (1/2) (by norm_num) (by norm_num)

/-! ## Rate Limiter (routes.ts `proxyRateLimiter` lines 15-21 and
`waitForProxyRateLimit` lines 23-50).  Time is `Nat` milliseconds; the
function returns the updated limiter state and the completion time (arrival
time plus any suspensions).  As in the source, the minimum-delay check uses
the `now` captured at entry, not the post-sleep clock. -/

/-- The mutable rate limiter state of the source. -/
structure ProxyRateLimiter where
  lastRequestTime : Nat
  requestCount : Nat
  resetTime : Nat
deriving DecidableEq

/-- `minDelay`: 1.5 seconds between requests. -/
def minDelay : Nat := 1500

/-- `maxRequestsPerMinute`: the rolling-window ceiling. -/
def maxRequestsPerMinute : Nat := 20

/-- `waitForProxyRateLimit` from the source, as a state transformer from
(state, arrival time) to (state, completion time). -/
def waitForProxyRateLimit (s : ProxyRateLimiter) (now : Nat) : ProxyRateLimiter × Nat :=
  let count0 := if 60000 < now - s.resetTime then 0 else s.requestCount
  let reset0 := if 60000 < now - s.resetTime then now else s.resetTime
  let t1 := if maxRequestsPerMinute ≤ count0 then now + (60000 - (now - reset0)) else now
  let count1 := if maxRequestsPerMinute ≤ count0 then 0 else count0
  let reset1 := if maxRequestsPerMinute ≤ count0 then t1 else reset0
  let t2 := if now - s.lastRequestTime < minDelay
    then t1 + (minDelay - (now - s.lastRequestTime)) else t1
  ({ lastRequestTime := t2, requestCount := count1 + 1, resetTime := reset1 }, t2)

/-- C4.  The Rate Limiter never drops a call (completion is defined and no
earlier than arrival), always enforces the minimum inter-request delay,
keeps the in-window count at or below the ceiling, and makes the (N+1)th
call inside a rolling minute block until the window resets. -/
theorem C4_rate_limiter (s : ProxyRateLimiter) (now : Nat)
    (hlast : s.lastRequestTime ≤ now) (hreset : s.resetTime ≤ now)
    (hcount : s.requestCount ≤ maxRequestsPerMinute) :
    now ≤ (waitForProxyRateLimit s now).2
    ∧ s.lastRequestTime + minDelay ≤ (waitForProxyRateLimit s now).2
    ∧ (waitForProxyRateLimit s now).1.requestCount ≤ maxRequestsPerMinute
    ∧ (waitForProxyRateLimit s now).1.lastRequestTime = (waitForProxyRateLimit s now).2
    ∧ (s.requestCount = maxRequestsPerMinute → now - s.resetTime ≤ 60000 →
        s.resetTime + 60000 ≤ (waitForProxyRateLimit s now).2) := by
  simp only [waitForProxyRateLimit, minDelay, maxRequestsPerMinute] at *
  split_ifs <;> refine ⟨?_, ?_, ?_, ?_, ?_⟩ <;> first | trivial | omega

/-- Witness for C4: a limiter already at the ceiling, called mid-window. -/
theorem C4_rate_limiter_witness :
    let s : ProxyRateLimiter := ⟨0, 20, 0⟩
    10000 ≤ (waitForProxyRateLimit s 10000).2
    ∧ s.lastRequestTime + minDelay ≤ (waitForProxyRateLimit s 10000).2
    ∧ (waitForProxyRateLimit s 10000).1.requestCount ≤ maxRequestsPerMinute
    ∧ (waitForProxyRateLimit s 10000).1.lastRequestTime = (waitForProxyRateLimit s 10000).2
    ∧ (s.requestCount = maxRequestsPerMinute → 10000 - s.resetTime ≤ 60000 →
        s.resetTime + 60000 ≤ (waitForProxyRateLimit s 10000).2) := by
  exact C4_rate_limiter ⟨0, 20, 0⟩ 10000 (by norm_num) (by norm_num)
    (by norm_num [maxRequestsPerMinute])

/-! ## Response Cache (routes.ts `proxyCache` lines 52-54,
`getCachedResponse` lines 56-64, `setCachedResponse` lines 66-73).
The JS `Map` is modelled as an insertion-ordered association list:
`set` on a new key appends, `set` on an existing key updates in place,
`keys().next().value` is the first key. -/

/-- The cache: a JS `Map` of key to (data, insertion timestamp). -/
abbrev CacheMap := List (String × String × Nat)

/-- `CACHE_TTL`: 5 minutes. -/
def CACHE_TTL : Nat := 300000

/-- `Map.get`. -/
def mapGet (m : CacheMap) (key : String) : Option (String × Nat) :=
  match m.find? (fun e => e.1 == key) with
  | some e => some e.2
  | none => none

/-- `Map.delete`. -/
def mapDelete (m : CacheMap) (key : String) : CacheMap :=
  m.filter (fun e => !(e.1 == key))

/-- `Map.set`: update in place when the key exists, append otherwise. -/
def mapSet (m : CacheMap) (key data : String) (ts : Nat) : CacheMap :=
  if (m.find? (fun e => e.1 == key)).isSome
  then m.map (fun e => if e.1 == key then (key, data, ts) else e)
  else m ++ [(key, data, ts)]

/-- `getCachedResponse` from the source: return the entry only while its age
is strictly below the TTL, otherwise delete it and return nothing. -/
def getCachedResponse (m : CacheMap) (key : String) (now : Nat) :
    Option String × CacheMap :=
  match mapGet m key with
  | some (data, ts) =>
    if now - ts < CACHE_TTL then (some data, m) else (none, mapDelete m key)
  | none => (none, mapDelete m key)

/-- `setCachedResponse` from the source: when over capacity, delete the
oldest-inserted key (the Map's first key) before inserting. -/
def setCachedResponse (m : CacheMap) (key data : String) (now : Nat) : CacheMap :=
  let m1 := if 100 < m.length then
      match m.head? with
      | some e => mapDelete m e.1
      | none => m
    else m
  mapSet m1 key data now

lemma mapGet_eq_none_of_all {l : CacheMap} {k0 : String}
    (h : ∀ e ∈ l, e.1 ≠ k0) : mapGet l k0 = none := by
  have : l.find? (fun e => e.1 == k0) = none := by
    rw [List.find?_eq_none]
    intro x hx
    simpa using h x hx
  rw [mapGet, this]

/-- C5.  The Response Cache never returns an entry whose age has reached the
TTL, and an insertion over capacity first evicts the oldest-inserted entry:
afterwards the first-inserted key is no longer present. -/
theorem C5_cache :
    (∀ (m : CacheMap) (key : String) (now : Nat) (d : String) (ts : Nat),
       mapGet m key = some (d, ts) → CACHE_TTL ≤ now - ts →
       (getCachedResponse m key now).1 = none)
    ∧ (∀ (k0 d0 : String) (ts0 : Nat) (rest : CacheMap) (key dat : String) (now : Nat),
       100 < ((k0, d0, ts0) :: rest : CacheMap).length →
       (∀ e ∈ rest, e.1 ≠ k0) → key ≠ k0 →
       mapGet (setCachedResponse ((k0, d0, ts0) :: rest) key dat now) k0 = none) := by
  constructor
  · intro m key now d ts hget hage
    simp only [getCachedResponse, hget]
    rw [if_neg (by omega)]
  · intro k0 d0 ts0 rest key dat now hlen hrest hkey
    have hdel : mapDelete ((k0, d0, ts0) :: rest) k0 = rest := by
      rw [mapDelete]
      rw [show ((k0, d0, ts0) :: rest).filter (fun e => !(e.1 == k0))
            = rest.filter (fun e => !(e.1 == k0)) by simp [List.filter_cons]]
      exact List.filter_eq_self.mpr (fun e he => by simpa using hrest e he)
    rw [setCachedResponse]
    simp only [List.head?_cons]
    rw [if_pos hlen, hdel, mapSet]
    split
    · apply mapGet_eq_none_of_all
      intro e he
      rcases List.mem_map.mp he with ⟨x, hx, hxe⟩
      subst hxe
      by_cases hq : x.1 = key
      · rw [if_pos (by simp [hq])]
        exact hkey
      · rw [if_neg (by simpa using hq)]
        exact hrest x hx
    · apply mapGet_eq_none_of_all
      intro e he
      rcases List.mem_append.mp he with hx | hx
      · exact hrest e hx
      · simp at hx
        subst hx
        exact hkey

/-- Concrete 100-entry tail used by the C5 witness. -/
def cacheRest : CacheMap := List.replicate 100 ("x", "v", 0)

/-- Witness for C5: an expired entry is not returned, and inserting into a
101-entry cache evicts the first-inserted key. -/
theorem C5_cache_witness :
    (getCachedResponse [("k", "v", 0)] "k" 300000).1 = none
    ∧ mapGet (setCachedResponse (("old", "d", 0) :: cacheRest) "new" "nd" 5) "old" = none := by
  constructor
  · exact C5_cache.1 [("k", "v", 0)] "k" 300000 "v" 0 rfl (by norm_num [CACHE_TTL])
  · refine C5_cache.2 "old" "d" 0 cacheRest "new" "nd" 5 (by simp [cacheRest]) ?_ (by simp)
    intro e he
    rw [cacheRest] at he
    rcases List.eq_of_mem_replicate he with rfl
    simp

/-! ## Entity decoding (routes.ts `decodeHtmlEntities`, lines 1153-1163).
The source applies global string replaces in sequence:
`&#39; &quot; &amp; &lt; &gt;`, then decimal numeric references via
`String.fromCharCode(parseInt(code))`, then newlines to spaces, then trim.
All passes are embedded as structural (fuel-indexed) recursions over the
character list so they evaluate by kernel reduction. -/

/-- Character from a code point. -/
def chr (n : Nat) : Char := Char.ofNat n

/-- One global `String.replace` pass for the literal pattern `p :: ps`.
The fuel starts at the list length and never runs out. -/
def replaceSubAux (p : Char) (ps repl : List Char) : Nat → List Char → List Char
  | 0, s => s
  | _ + 1, [] => []
  | fuel + 1, c :: rest =>
    if c = p ∧ ps.isPrefixOf rest then
      repl ++ replaceSubAux p ps repl fuel (rest.drop ps.length)
    else
      c :: replaceSubAux p ps repl fuel rest

/-- JS `String.replace` with a global literal pattern. -/
def replaceSub (p : Char) (ps repl s : List Char) : List Char :=
  replaceSubAux p ps repl s.length s

/-- `parseInt` on a digit run. -/
def digitsToNat (ds : List Char) : Nat :=
  ds.foldl (fun acc c => acc * 10 + (c.toNat - 48)) 0

/-- JS `String.fromCharCode`: the code is taken modulo 2^16.  Lone
surrogates are unrepresentable as Lean characters; all inputs in this
development are valid scalar values. -/
def fromCharCode (n : Nat) : Char := Char.ofNat (n % 65536)

/-- One global pass of `replace(/&#(\d+);/g, ...)`: at each ampersand
followed by a hash, a nonempty digit run and a semicolon, substitute the
referenced character; otherwise keep scanning. -/
def replaceNumericEntitiesAux : Nat → List Char → List Char
  | 0, s => s
  | _ + 1, [] => []
  | fuel + 1, c :: rest =>
    if c = '&' then
      match rest with
      | '#' :: afterHash =>
        match afterHash.takeWhile Char.isDigit, afterHash.dropWhile Char.isDigit with
        | _ :: _, ';' :: tail2 =>
          fromCharCode (digitsToNat (afterHash.takeWhile Char.isDigit))
            :: replaceNumericEntitiesAux fuel tail2
        | _, _ => c :: replaceNumericEntitiesAux fuel rest
      | _ => c :: replaceNumericEntitiesAux fuel rest
    else c :: replaceNumericEntitiesAux fuel rest

/-- `replace(/&#(\d+);/g, (_, code) => String.fromCharCode(parseInt(code)))`. -/
def replaceNumericEntities (s : List Char) : List Char :=
  replaceNumericEntitiesAux s.length s

/-- `replace(/\n/g, ' ')`. -/
def replaceNewlines (s : List Char) : List Char :=
  s.map (fun c => if c = '\n' then ' ' else c)

/-- JS `String.prototype.trim`. -/
def jsTrim (s : List Char) : List Char :=
  (((s.dropWhile Char.isWhitespace).reverse).dropWhile Char.isWhitespace).reverse

/-- `decodeHtmlEntities` from the source: the five named-entity passes in
source order, then numeric references, newlines, and a final trim. -/
def decodeHtmlEntities (text : String) : String :=
  let s := text.data
  let s := replaceSub '&' "#39;".data [chr 39] s
  let s := replaceSub '&' "quot;".data [chr 34] s
  let s := replaceSub '&' "amp;".data ['&'] s
  let s := replaceSub '&' "lt;".data ['<'] s
  let s := replaceSub '&' "gt;".data ['>'] s
  let s := replaceNumericEntities s
  let s := replaceNewlines s
  String.mk (jsTrim s)

/-- C8.  Decoding a string containing the five named entities and a decimal
numeric character reference reproduces the literal ampersand, less-than,
greater-than, double quote, apostrophe, and the referenced code point
(here `&#65;`, the letter A) exactly. -/
theorem C8_entity_round_trip :
    decodeHtmlEntities "&amp; &lt; &gt; &quot; &#39; &#65;" = "& < > \" ' A" := by
  rfl

/-! ## Video id extraction (transcriptFetcher.ts `extractVideoId`,
lines 130-154).  The platform's WHATWG `new URL` is modelled for absolute
special-scheme URLs without userinfo or percent-encoding: scheme `://`
host (lowercased, port stripped) path query.  `url.searchParams.get`
is modelled without percent-decoding; inputs in this development contain
none. -/

/-- A character allowed by the id pattern `[a-zA-Z0-9_-]`. -/
def isVideoIdChar (c : Char) : Bool :=
  c.isAlpha || c.isDigit || c = '_' || c = '-'

/-- The source's 11-character id test `/^[a-zA-Z0-9_-]{11}$/`. -/
def isPlainVideoId (s : String) : Bool :=
  s.data.length = 11 && s.data.all isVideoIdChar

/-- Split a list at the first occurrence of a literal separator. -/
def splitFirstAux (sep : List Char) : List Char → Option (List Char × List Char)
  | [] => none
  | c :: rest =>
    if sep.isPrefixOf (c :: rest) then some ([], (c :: rest).drop sep.length)
    else
      match splitFirstAux sep rest with
      | some (a, b) => some (c :: a, b)
      | none => none

/-- A character allowed inside a URL scheme. -/
def isSchemeChar (c : Char) : Bool :=
  c.isAlpha || c.isDigit || c = '+' || c = '-' || c = '.'

/-- The parts of a parsed URL the source reads. -/
structure JsURL where
  hostname : String
  pathname : String
  search : String
deriving DecidableEq

/-- Model of `new URL(input)` (throw modelled as `none`). -/
def parseURL (input : String) : Option JsURL :=
  match splitFirstAux "://".data input.data with
  | none => none
  | some (scheme, rest) =>
    if scheme = [] ∨ ¬(scheme.all isSchemeChar = true)
        ∨ ¬(scheme.head?.elim false Char.isAlpha = true) then none
    else
      let authority := rest.takeWhile (fun c => !(c = '/') && !(c = '?') && !(c = '#'))
      let afterAuth := rest.dropWhile (fun c => !(c = '/') && !(c = '?') && !(c = '#'))
      if authority = [] then none
      else
        let host := (authority.takeWhile (fun c => !(c = ':'))).map Char.toLower
        let path := afterAuth.takeWhile (fun c => !(c = '?') && !(c = '#'))
        let query :=
          match afterAuth.dropWhile (fun c => !(c = '?') && !(c = '#')) with
          | '?' :: q => q.takeWhile (fun c => !(c = '#'))
          | _ => []
        let pathname := if path = [] then ['/'] else path
        some ⟨String.mk host, String.mk pathname, String.mk query⟩

/-- Split a list on every occurrence of a separator character. -/
def splitListAux (sep : Char) : List Char → List (List Char)
  | [] => [[]]
  | c :: rest =>
    let r := splitListAux sep rest
    if c = sep then [] :: r
    else
      match r with
      | a :: t => (c :: a) :: t
      | [] => [[c]]

/-- Model of `url.searchParams.get(name)`: first `name=value` pair of the
query, empty value when the pair has no equals sign. -/
def getQueryParam (search name : String) : Option String :=
  (splitListAux '&' search.data).findSome? (fun piece =>
    if piece = [] then none
    else if piece.takeWhile (fun c => !(c = '=')) = name.data then
      some (String.mk ((piece.dropWhile (fun c => !(c = '='))).tail))
    else none)

/-- JS `String.prototype.includes` as an occurrence test. -/
def hasSubstr (pat : List Char) : List Char → Bool
  | [] => pat.isPrefixOf []
  | c :: rest => pat.isPrefixOf (c :: rest) || hasSubstr pat rest

/-- `extractVideoId` from the source: return 11-character ids unchanged;
otherwise parse as URL and read the `v` parameter for hosts containing
`youtube.com`, the path after the slash for host `youtu.be`; else null. -/
def extractVideoId (urlOrId : String) : Option String :=
  if isPlainVideoId urlOrId then some urlOrId
  else
    match parseURL urlOrId with
    | some url =>
      if hasSubstr "youtube.com".data url.hostname.data then
        getQueryParam url.search "v"
      else if url.hostname = "youtu.be" then
        some (String.mk url.pathname.data.tail)
      else none
    | none => none

/-- C10.  `extractVideoId` is total with an optional result: 11-character
ids of the allowed alphabet are returned unchanged; a parseable URL whose
host contains `youtube.com` yields the `v` query parameter; host
`youtu.be` yields the path after the leading slash; everything else —
unparseable inputs included — yields `none`, never an error. -/
theorem C10_extract_video_id :
    (∀ s : String, isPlainVideoId s = true → extractVideoId s = some s)
    ∧ (∀ (s : String) (u : JsURL), isPlainVideoId s = false → parseURL s = some u →
        hasSubstr "youtube.com".data u.hostname.data = true →
        extractVideoId s = getQueryParam u.search "v")
    ∧ (∀ (s : String) (u : JsURL), isPlainVideoId s = false → parseURL s = some u →
        hasSubstr "youtube.com".data u.hostname.data = false → u.hostname = "youtu.be" →
        extractVideoId s = some (String.mk u.pathname.data.tail))
    ∧ (∀ (s : String) (u : JsURL), isPlainVideoId s = false → parseURL s = some u →
        hasSubstr "youtube.com".data u.hostname.data = false → u.hostname ≠ "youtu.be" →
        extractVideoId s = none)
    ∧ (∀ s : String, isPlainVideoId s = false → parseURL s = none →
        extractVideoId s = none) := by
  refine ⟨?_, ?_, ?_, ?_, ?_⟩
  · intro s h
    rw [extractVideoId, if_pos h]
  · intro s u hid hp hh
    rw [extractVideoId, if_neg (by simp [hid]), hp]
    exact if_pos hh
  · intro s u hid hp hh hb
    rw [extractVideoId, if_neg (by simp [hid]), hp]
    exact (if_neg (by simp [hh])).trans (if_pos hb)
  · intro s u hid hp hh hb
    rw [extractVideoId, if_neg (by simp [hid]), hp]
    exact (if_neg (by simp [hh])).trans (if_neg hb)
  · intro s hid hp
    rw [extractVideoId, if_neg (by simp [hid]), hp]

/-- Witness for C10: a plain id, a watch URL, a short URL, an unrelated
host, and garbage, each evaluated concretely through the theorem. -/
theorem C10_extract_video_id_witness :
    extractVideoId "dQw4w9WgXcQ" = some "dQw4w9WgXcQ"
    ∧ extractVideoId "https://www.youtube.com/watch?v=dQw4w9WgXcQ" = some "dQw4w9WgXcQ"
    ∧ extractVideoId "https://youtu.be/dQw4w9WgXcQ" = some "dQw4w9WgXcQ"
    ∧ extractVideoId "https://example.com/watch?v=dQw4w9WgXcQ" = none
    ∧ extractVideoId "not a url" = none := by
  refine ⟨?_, ?_, ?_, ?_, ?_⟩
  · exact C10_extract_video_id.1 "dQw4w9WgXcQ" (by decide)
  · have h := C10_extract_video_id.2.1 "https://www.youtube.com/watch?v=dQw4w9WgXcQ"
      ⟨"www.youtube.com", "/watch", "v=dQw4w9WgXcQ"⟩ (by decide) (by decide) (by decide)
    rw [h]
    rfl
  · have h := C10_extract_video_id.2.2.1 "https://youtu.be/dQw4w9WgXcQ"
      ⟨"youtu.be", "/dQw4w9WgXcQ", ""⟩ (by decide) (by decide) (by decide) (by decide)
    rw [h]
    rfl
  · exact C10_extract_video_id.2.2.2.1 "https://example.com/watch?v=dQw4w9WgXcQ"
      ⟨"example.com", "/watch", "v=dQw4w9WgXcQ"⟩ (by decide) (by decide) (by decide) (by decide)
  · exact C10_extract_video_id.2.2.2.2 "not a url" (by decide) (by decide)

/-! ## Timed-Text Parser (routes.ts `parseTranscriptXml`, lines 1168-1186).
The source scans the payload with the global regex
`/<text start="([^"]*)" dur="([^"]*)"[^>]*>([^<]*)<\/text>/g`.
Each negated character class is forced to stop at the delimiter that
follows it, so matching at a given position is deterministic; on failure
the engine advances one character, exactly as the fuel-indexed scanner
below does. -/

/-- Strip a literal from the front of a list. -/
def stripLit : List Char → List Char → Option (List Char)
  | [], s => some s
  | _ :: _, [] => none
  | l :: ls, c :: cs => if c = l then stripLit ls cs else none

/-- Match `[^x]*x`: capture up to the first occurrence of the stop
character, consuming it; fail when it never occurs. -/
def takeUntil (stop : Char) : List Char → Option (List Char × List Char)
  | [] => none
  | c :: cs =>
    if c = stop then some ([], cs)
    else
      match takeUntil stop cs with
      | some (a, b) => some (c :: a, b)
      | none => none

/-- Attempt the source regex at the start of the list, returning the three
captured groups (start attribute, dur attribute, text) and the remainder. -/
def tryMatchAt (s : List Char) : Option ((List Char × List Char × List Char) × List Char) :=
  match stripLit "<text start=\"".data s with
  | none => none
  | some s1 =>
    match takeUntil (chr 34) s1 with
    | none => none
    | some (cap1, s2) =>
      match stripLit " dur=\"".data s2 with
      | none => none
      | some s3 =>
        match takeUntil (chr 34) s3 with
        | none => none
        | some (cap2, s4) =>
          match takeUntil '>' s4 with
          | none => none
          | some (_, s5) =>
            match takeUntil '<' s5 with
            | none => none
            | some (cap3, s6) =>
              match stripLit "/text>".data s6 with
              | none => none
              | some s7 => some ((cap1, cap2, cap3), s7)

/-- The `regex.exec` loop: emit the match and continue after it, or advance
one character.  Fuel starts at the list length and never runs out. -/
def scanAux : Nat → List Char → List (List Char × List Char × List Char)
  | 0, _ => []
  | fuel + 1, s =>
    match tryMatchAt s with
    | some (m, rest) => m :: scanAux fuel rest
    | none =>
      match s with
      | [] => []
      | _ :: t => scanAux fuel t

/-- A parsed caption snippet.  The source stores
`parseFloat(match[1] || '0')` and `parseFloat(match[2] || '0')`; the
attribute text (after the falsy-default) is kept here, since the claims
under verification concern which elements survive and in what order, not
the floating-point conversion. -/
structure TranscriptSnippet where
  text : String
  start : String
  duration : String
deriving DecidableEq

/-- JS `trim` on a `String`. -/
def jsTrimS (s : String) : String := String.mk (jsTrim s.data)

/-- The loop body of the source: decode the captured text, keep the snippet
only when the trimmed text is nonempty, defaulting empty attribute captures
to `'0'` (`match[k] || '0'`). -/
def snippetOf (m : List Char × List Char × List Char) : Option TranscriptSnippet :=
  let text := decodeHtmlEntities (String.mk m.2.2)
  if jsTrimS text ≠ "" then
    some { text := jsTrimS text,
           start := if m.1 = [] then "0" else String.mk m.1,
           duration := if m.2.1 = [] then "0" else String.mk m.2.1 }
  else none

/-- `parseTranscriptXml` from the source: scan all regex matches in order,
decode each text, and keep only those whose trimmed text is nonempty. -/
def parseTranscriptXml (xml : String) : List TranscriptSnippet :=
  (scanAux xml.data.length xml.data).filterMap snippetOf

/-! Test harness for C6: a rendered timed-text payload. -/

/-- One timed element of the wire format, with optional attributes. -/
structure XmlElem where
  startAttr : Option String
  durAttr : Option String
  text : String
deriving DecidableEq

/-- Render one element, right-nested to expose the scanner's path. -/
def renderElem (e : XmlElem) : List Char :=
  match e.startAttr, e.durAttr with
  | some s, some d =>
    "<text start=\"".data ++ (s.data ++ (chr 34 :: (" dur=\"".data
      ++ (d.data ++ (chr 34 :: ('>' :: (e.text.data ++ ('<' :: "/text>".data))))))))
  | some s, none =>
    "<text start=\"".data ++ (s.data ++ (chr 34 :: ('>'
      :: (e.text.data ++ ('<' :: "/text>".data)))))
  | none, some d =>
    "<text dur=\"".data ++ (d.data ++ (chr 34 :: ('>'
      :: (e.text.data ++ ('<' :: "/text>".data)))))
  | none, none =>
    "<text>".data ++ (e.text.data ++ ('<' :: "/text>".data))

/-- Render a whole payload. -/
def renderXml (es : List XmlElem) : List Char := (es.map renderElem).flatten

/-- Attribute text free of quotes and angle openers. -/
def wfAttrB (s : String) : Bool := s.data.all (fun c => !(c = chr 34) && !(c = '<'))

/-- Element text free of angle openers. -/
def wfTextB (s : String) : Bool := s.data.all (fun c => !(c = '<'))

/-- A well-formed element of the test payload. -/
def wfElemB (e : XmlElem) : Bool :=
  (e.startAttr.elim true wfAttrB) && (e.durAttr.elim true wfAttrB) && wfTextB e.text

/-- The elements the source's regex accepts: both attributes present. -/
def bothAttrs (e : XmlElem) : Bool := e.startAttr.isSome && e.durAttr.isSome

/-- The captured groups the scanner produces for an accepted element. -/
def capturesOf (e : XmlElem) : List Char × List Char × List Char :=
  ((e.startAttr.getD "").data, (e.durAttr.getD "").data, e.text.data)

/-- An element surviving the parser: both attributes and nonempty decoded
trimmed text. -/
def keepElem (e : XmlElem) : Bool :=
  bothAttrs e && !(jsTrimS (decodeHtmlEntities e.text) == "")

/-- The snippet the parser produces for a surviving element. -/
def toSnippet (e : XmlElem) : TranscriptSnippet :=
  { text := jsTrimS (decodeHtmlEntities e.text),
    start := if e.startAttr.getD "" = "" then "0" else e.startAttr.getD "",
    duration := if e.durAttr.getD "" = "" then "0" else e.durAttr.getD "" }

lemma stripLit_pre (l s : List Char) : stripLit l (l ++ s) = some s := by
  induction l with
  | nil => rfl
  | cons c cs ih => simpa [stripLit] using ih

lemma takeUntil_no_stop (stop : Char) (a b : List Char) (h : ∀ c ∈ a, ¬ c = stop) :
    takeUntil stop (a ++ stop :: b) = some (a, b) := by
  induction a with
  | nil => simp [takeUntil]
  | cons c a ih =>
    have hc := h c (List.mem_cons_self c a)
    rw [List.cons_append, takeUntil, if_neg hc,
      ih (fun x hx => h x (List.mem_cons_of_mem _ hx))]

lemma takeUntil_cons_self (c : Char) (b : List Char) :
    takeUntil c (c :: b) = some ([], b) := by
  simp [takeUntil]

lemma stripLit_length {l s r : List Char} (h : stripLit l s = some r) :
    r.length + l.length = s.length := by
  induction l generalizing s with
  | nil => cases h; simp
  | cons c cs ih =>
    cases s with
    | nil => cases h
    | cons x xs =>
      rw [stripLit] at h
      by_cases hx : x = c
      · rw [if_pos hx] at h
        have := ih h
        simp at this ⊢
        omega
      · rw [if_neg hx] at h
        cases h

lemma takeUntil_length {stop : Char} {s a b : List Char}
    (h : takeUntil stop s = some (a, b)) : a.length + 1 + b.length = s.length := by
  induction s generalizing a with
  | nil => cases h
  | cons c cs ih =>
    rw [takeUntil] at h
    by_cases hc : c = stop
    · rw [if_pos hc] at h
      cases h
      simp
      omega
    · rw [if_neg hc] at h
      cases hu : takeUntil stop cs with
      | none => rw [hu] at h; cases h
      | some p =>
        rw [hu] at h
        cases h
        have := ih (by rw [hu])
        simp at this ⊢
        omega

lemma tryMatchAt_some_length {s : List Char}
    {m : List Char × List Char × List Char} {rest : List Char}
    (h : tryMatchAt s = some (m, rest)) : rest.length < s.length := by
  rw [tryMatchAt] at h
  cases h1 : stripLit "<text start=\"".data s with
  | none => simp only [h1] at h; cases h
  | some s1 =>
    simp only [h1] at h
    cases h2 : takeUntil (chr 34) s1 with
    | none => simp only [h2] at h; cases h
    | some p1 =>
      obtain ⟨c1, s2⟩ := p1
      simp only [h2] at h
      cases h3 : stripLit " dur=\"".data s2 with
      | none => simp only [h3] at h; cases h
      | some s3 =>
        simp only [h3] at h
        cases h4 : takeUntil (chr 34) s3 with
        | none => simp only [h4] at h; cases h
        | some p2 =>
          obtain ⟨c2, s4⟩ := p2
          simp only [h4] at h
          cases h5 : takeUntil '>' s4 with
          | none => simp only [h5] at h; cases h
          | some p3 =>
            obtain ⟨c3, s5⟩ := p3
            simp only [h5] at h
            cases h6 : takeUntil '<' s5 with
            | none => simp only [h6] at h; cases h
            | some p4 =>
              obtain ⟨c4, s6⟩ := p4
              simp only [h6] at h
              cases h7 : stripLit "/text>".data s6 with
              | none => simp only [h7] at h; cases h
              | some s7 =>
                simp only [h7, Option.some.injEq] at h
                cases h
                have l1 := stripLit_length h1
                have l2 := takeUntil_length h2
                have l3 := stripLit_length h3
                have l4 := takeUntil_length h4
                have l5 := takeUntil_length h5
                have l6 := takeUntil_length h6
                have l7 := stripLit_length h7
                have hlit : ("<text start=\"".data).length = 13 := rfl
                have hlit2 : (" dur=\"".data).length = 6 := rfl
                have hlit3 : ("/text>".data).length = 6 := rfl
                omega

lemma wfAttrB_no_quote {s : String} (h : wfAttrB s = true) :
    ∀ c ∈ s.data, ¬ c = chr 34 := by
  rw [wfAttrB, List.all_eq_true] at h
  intro c hc
  have := h c hc
  simp at this
  exact this.1

lemma wfAttrB_no_lt {s : String} (h : wfAttrB s = true) :
    ∀ c ∈ s.data, ¬ c = '<' := by
  rw [wfAttrB, List.all_eq_true] at h
  intro c hc
  have := h c hc
  simp at this
  exact this.2

lemma wfTextB_no_lt {s : String} (h : wfTextB s = true) :
    ∀ c ∈ s.data, ¬ c = '<' := by
  rw [wfTextB, List.all_eq_true] at h
  intro c hc
  have := h c hc
  simpa using this

lemma tryMatchAt_render_both (s d t : String) (rest : List Char)
    (hs : wfAttrB s = true) (hd : wfAttrB d = true) (ht : wfTextB t = true) :
    tryMatchAt (renderElem ⟨some s, some d, t⟩ ++ rest)
      = some ((s.data, d.data, t.data), rest) := by
  have harg : renderElem ⟨some s, some d, t⟩ ++ rest
      = "<text start=\"".data ++ (s.data ++ (chr 34 :: (" dur=\"".data
        ++ (d.data ++ (chr 34 :: ('>' :: (t.data
        ++ ('<' :: ("/text>".data ++ rest))))))))) := by
    simp [renderElem, List.append_assoc]
  rw [harg, tryMatchAt]
  simp only [stripLit_pre]
  have e1 := takeUntil_no_stop (chr 34) s.data (" dur=\"".data
    ++ (d.data ++ (chr 34 :: ('>' :: (t.data ++ ('<' :: ("/text>".data ++ rest)))))))
    (wfAttrB_no_quote hs)
  simp only [e1]
  simp only [stripLit_pre]
  have e2 := takeUntil_no_stop (chr 34) d.data
    ('>' :: (t.data ++ ('<' :: ("/text>".data ++ rest)))) (wfAttrB_no_quote hd)
  simp only [e2]
  simp only [takeUntil_cons_self]
  have e3 := takeUntil_no_stop '<' t.data ("/text>".data ++ rest) (wfTextB_no_lt ht)
  simp only [e3]
  simp only [stripLit_pre]

lemma tryMatchAt_head_ne (c : Char) (t : List Char) (h : ¬ c = '<') :
    tryMatchAt (c :: t) = none := by
  have h0 : stripLit "<text start=\"".data (c :: t) = none := by
    rw [show "<text start=\"".data = '<' :: "text start=\"".data from rfl]
    simp only [stripLit]
    rw [if_neg h]
  simp only [tryMatchAt, h0]

lemma scan_pass_nonlt (u : List Char) (rest : List Char) (fuel : Nat)
    (h : ∀ c ∈ u, ¬ c = '<') (hfuel : u.length + rest.length ≤ fuel) :
    scanAux fuel (u ++ rest) = scanAux (fuel - u.length) rest := by
  induction u generalizing fuel with
  | nil => simp
  | cons c u ih =>
    cases fuel with
    | zero => simp only [List.length_cons] at hfuel; omega
    | succ f =>
      have hne := h c (List.mem_cons_self c u)
      rw [List.cons_append]
      simp only [scanAux, tryMatchAt_head_ne c (u ++ rest) hne]
      rw [ih f (fun x hx => h x (List.mem_cons_of_mem _ hx))
        (by simp only [List.length_cons] at hfuel; omega)]
      congr 1
      simp only [List.length_cons]
      omega

lemma scan_skip_generic (w rest : List Char) (fuel : Nat)
    (hw : ∀ c ∈ w, ¬ c = '<')
    (hfail : tryMatchAt ('<' :: (w ++ ('<' :: ("/text>".data ++ rest)))) = none)
    (hfuel : w.length + rest.length + 8 ≤ fuel) :
    scanAux fuel ('<' :: (w ++ ('<' :: ("/text>".data ++ rest))))
      = scanAux (fuel - (w.length + 8)) rest := by
  have h6 : ("/text>".data).length = 6 := rfl
  cases fuel with
  | zero => omega
  | succ f =>
    simp only [scanAux, hfail]
    rw [scan_pass_nonlt w _ f hw
      (by simp only [List.length_cons, List.length_append, h6]; omega)]
    have hstep : f - w.length = (f - w.length - 1) + 1 := by omega
    rw [hstep]
    simp only [scanAux, show tryMatchAt ('<' :: ("/text>".data ++ rest)) = none from rfl]
    rw [scan_pass_nonlt "/text>".data rest _ (by decide)
      (by simp only [h6]; omega)]
    rw [show f - w.length - 1 - ("/text>".data).length = (f + 1) - (w.length + 8) by
      simp only [h6]; omega]

lemma scan_skip_nn (T : String) (rest : List Char) (fuel : Nat)
    (hT : wfTextB T = true)
    (hfuel : (renderElem ⟨none, none, T⟩).length + rest.length ≤ fuel) :
    scanAux fuel (renderElem ⟨none, none, T⟩ ++ rest)
      = scanAux (fuel - (renderElem ⟨none, none, T⟩).length) rest := by
  have hlen : (renderElem ⟨none, none, T⟩).length
      = ("text>".data ++ T.data).length + 8 := by
    simp only [renderElem, List.length_append, List.length_cons, List.length_nil]
    omega
  have hdecomp : renderElem ⟨none, none, T⟩ ++ rest
      = '<' :: (("text>".data ++ T.data) ++ ('<' :: ("/text>".data ++ rest))) := by
    rw [show renderElem ⟨none, none, T⟩
      = "<text>".data ++ (T.data ++ ('<' :: "/text>".data)) from rfl]
    rw [show "<text>".data = '<' :: "text>".data from rfl]
    simp [List.append_assoc]
  have hw : ∀ c ∈ "text>".data ++ T.data, ¬ c = '<' :=
    List.forall_mem_append.mpr ⟨by decide, wfTextB_no_lt hT⟩
  rw [hlen, hdecomp]
  exact scan_skip_generic _ rest fuel hw rfl (by omega)

lemma scan_skip_sn (s T : String) (rest : List Char) (fuel : Nat)
    (hs : wfAttrB s = true) (hT : wfTextB T = true)
    (hfuel : (renderElem ⟨some s, none, T⟩).length + rest.length ≤ fuel) :
    scanAux fuel (renderElem ⟨some s, none, T⟩ ++ rest)
      = scanAux (fuel - (renderElem ⟨some s, none, T⟩).length) rest := by
  have hlen : (renderElem ⟨some s, none, T⟩).length
      = ("text start=\"".data ++ (s.data ++ (chr 34 :: ('>' :: T.data)))).length + 8 := by
    simp only [renderElem, List.length_append, List.length_cons, List.length_nil]
    omega
  have hdecomp : renderElem ⟨some s, none, T⟩ ++ rest
      = '<' :: (("text start=\"".data ++ (s.data ++ (chr 34 :: ('>' :: T.data))))
          ++ ('<' :: ("/text>".data ++ rest))) := by
    rw [show renderElem ⟨some s, none, T⟩
      = "<text start=\"".data ++ (s.data ++ (chr 34 :: ('>'
          :: (T.data ++ ('<' :: "/text>".data))))) from rfl]
    rw [show "<text start=\"".data = '<' :: "text start=\"".data from rfl]
    simp [List.append_assoc]
  have hw : ∀ c ∈ "text start=\"".data ++ (s.data ++ (chr 34 :: ('>' :: T.data))),
      ¬ c = '<' := by
    refine List.forall_mem_append.mpr ⟨by decide, ?_⟩
    refine List.forall_mem_append.mpr ⟨wfAttrB_no_lt hs, ?_⟩
    refine List.forall_mem_cons.mpr ⟨by decide, ?_⟩
    exact List.forall_mem_cons.mpr ⟨by decide, wfTextB_no_lt hT⟩
  have hfail : tryMatchAt ('<' :: (("text start=\"".data
      ++ (s.data ++ (chr 34 :: ('>' :: T.data)))) ++ ('<' :: ("/text>".data ++ rest))))
      = none := by
    have harg : ('<' :: (("text start=\"".data ++ (s.data ++ (chr 34 :: ('>' :: T.data))))
        ++ ('<' :: ("/text>".data ++ rest))))
        = "<text start=\"".data ++ (s.data ++ (chr 34 :: ('>'
            :: (T.data ++ ('<' :: ("/text>".data ++ rest)))))) := by
      rw [show "<text start=\"".data = '<' :: "text start=\"".data from rfl]
      simp [List.append_assoc]
    rw [harg, tryMatchAt]
    simp only [stripLit_pre]
    have e1 := takeUntil_no_stop (chr 34) s.data
      ('>' :: (T.data ++ ('<' :: ("/text>".data ++ rest)))) (wfAttrB_no_quote hs)
    simp only [e1]
    rfl
  rw [hlen, hdecomp]
  exact scan_skip_generic _ rest fuel hw hfail (by omega)

lemma scan_skip_nd (d T : String) (rest : List Char) (fuel : Nat)
    (hd : wfAttrB d = true) (hT : wfTextB T = true)
    (hfuel : (renderElem ⟨none, some d, T⟩).length + rest.length ≤ fuel) :
    scanAux fuel (renderElem ⟨none, some d, T⟩ ++ rest)
      = scanAux (fuel - (renderElem ⟨none, some d, T⟩).length) rest := by
  have hlen : (renderElem ⟨none, some d, T⟩).length
      = ("text dur=\"".data ++ (d.data ++ (chr 34 :: ('>' :: T.data)))).length + 8 := by
    simp only [renderElem, List.length_append, List.length_cons, List.length_nil]
    omega
  have hdecomp : renderElem ⟨none, some d, T⟩ ++ rest
      = '<' :: (("text dur=\"".data ++ (d.data ++ (chr 34 :: ('>' :: T.data))))
          ++ ('<' :: ("/text>".data ++ rest))) := by
    rw [show renderElem ⟨none, some d, T⟩
      = "<text dur=\"".data ++ (d.data ++ (chr 34 :: ('>'
          :: (T.data ++ ('<' :: "/text>".data))))) from rfl]
    rw [show "<text dur=\"".data = '<' :: "text dur=\"".data from rfl]
    simp [List.append_assoc]
  have hw : ∀ c ∈ "text dur=\"".data ++ (d.data ++ (chr 34 :: ('>' :: T.data))),
      ¬ c = '<' := by
    refine List.forall_mem_append.mpr ⟨by decide, ?_⟩
    refine List.forall_mem_append.mpr ⟨wfAttrB_no_lt hd, ?_⟩
    refine List.forall_mem_cons.mpr ⟨by decide, ?_⟩
    exact List.forall_mem_cons.mpr ⟨by decide, wfTextB_no_lt hT⟩
  rw [hlen, hdecomp]
  exact scan_skip_generic _ rest fuel hw rfl (by omega)

lemma scanAux_nil (fuel : Nat) : scanAux fuel [] = [] := by
  cases fuel with
  | zero => rfl
  | succ f => rfl

/-- The scanner finds exactly the both-attribute elements, in order. -/
lemma scan_render (es : List XmlElem) (fuel : Nat)
    (hwf : ∀ e ∈ es, wfElemB e = true)
    (hfuel : (renderXml es).length ≤ fuel) :
    scanAux fuel (renderXml es) = (es.filter bothAttrs).map capturesOf := by
  induction es generalizing fuel with
  | nil => simpa [renderXml] using scanAux_nil fuel
  | cons e es ih =>
    have hre : renderXml (e :: es) = renderElem e ++ renderXml es := by
      simp [renderXml]
    rw [hre] at hfuel ⊢
    have hwe : wfElemB e = true := hwf e (List.mem_cons_self e es)
    have hwrest : ∀ x ∈ es, wfElemB x = true :=
      fun x hx => hwf x (List.mem_cons_of_mem _ hx)
    have hlapp : (renderElem e ++ renderXml es).length
        = (renderElem e).length + (renderXml es).length := List.length_append _ _
    obtain ⟨os, od, T⟩ := e
    cases os with
    | some s =>
      cases od with
      | some d =>
        rw [wfElemB] at hwe
        simp at hwe
        obtain ⟨⟨hs, hd⟩, hT⟩ := hwe
        have hmatch := tryMatchAt_render_both s d T (renderXml es) hs hd hT
        have hpos : 1 ≤ (renderElem ⟨some s, some d, T⟩).length := by
          rw [show renderElem ⟨some s, some d, T⟩
            = "<text start=\"".data ++ (s.data ++ (chr 34 :: (" dur=\"".data
              ++ (d.data ++ (chr 34 :: ('>' :: (T.data
              ++ ('<' :: "/text>".data)))))))) from rfl]
          rw [show "<text start=\"".data = '<' :: "text start=\"".data from rfl]
          simp
        cases fuel with
        | zero => omega
        | succ f =>
          simp only [scanAux, hmatch]
          rw [ih f hwrest (by omega)]
          simp [List.filter_cons, bothAttrs, capturesOf]
      | none =>
        rw [wfElemB] at hwe
        simp at hwe
        obtain ⟨hs, hT⟩ := hwe
        rw [scan_skip_sn s T (renderXml es) fuel hs hT (by omega)]
        rw [ih _ hwrest (by omega)]
        simp [List.filter_cons, bothAttrs]
    | none =>
      cases od with
      | some d =>
        rw [wfElemB] at hwe
        simp at hwe
        obtain ⟨hd, hT⟩ := hwe
        rw [scan_skip_nd d T (renderXml es) fuel hd hT (by omega)]
        rw [ih _ hwrest (by omega)]
        simp [List.filter_cons, bothAttrs]
      | none =>
        rw [wfElemB] at hwe
        simp at hwe
        rw [scan_skip_nn T (renderXml es) fuel hwe (by omega)]
        rw [ih _ hwrest (by omega)]
        simp [List.filter_cons, bothAttrs]

lemma ifEmptyStr (s : String) :
    (if s.data = [] then ("0" : String) else String.mk s.data)
      = (if s = "" then "0" else s) := by
  obtain ⟨ls⟩ := s
  by_cases h : ls = []
  · subst h
    rfl
  · rw [if_neg h, if_neg ?_]
    intro hc
    apply h
    have := congrArg String.data hc
    simpa using this

lemma snippetOf_eq (e : XmlElem) (hb : bothAttrs e = true) :
    snippetOf (capturesOf e)
      = if jsTrimS (decodeHtmlEntities e.text) = "" then none else some (toSnippet e) := by
  obtain ⟨os, od, T⟩ := e
  rw [bothAttrs] at hb
  simp only [Bool.and_eq_true, Option.isSome_iff_exists] at hb
  obtain ⟨⟨s, hs⟩, d, hd⟩ := hb
  subst hs
  subst hd
  rw [snippetOf, capturesOf]
  simp only [Option.getD]
  rw [show String.mk T.data = T from rfl]
  by_cases hk : jsTrimS (decodeHtmlEntities T) = ""
  · rw [if_pos hk, if_neg (by simpa using hk)]
  · rw [if_neg hk, if_pos (by simpa using hk)]
    rw [toSnippet]
    simp only [Option.getD]
    rw [ifEmptyStr s, ifEmptyStr d]

lemma filterMap_keep (es : List XmlElem) :
    (es.filter bothAttrs).filterMap (snippetOf ∘ capturesOf)
      = (es.filter keepElem).map toSnippet := by
  induction es with
  | nil => rfl
  | cons e es ih =>
    by_cases hb : bothAttrs e = true
    · rw [List.filter_cons_of_pos hb]
      by_cases hk : jsTrimS (decodeHtmlEntities e.text) = ""
      · have hnone : (snippetOf ∘ capturesOf) e = none := by
          rw [Function.comp_apply, snippetOf_eq e hb, if_pos hk]
        rw [List.filterMap_cons_none hnone]
        have hkeep : ¬ keepElem e = true := by
          simp [keepElem, hb, hk]
        rw [List.filter_cons_of_neg hkeep, ih]
      · have hsome : (snippetOf ∘ capturesOf) e = some (toSnippet e) := by
          rw [Function.comp_apply, snippetOf_eq e hb, if_neg hk]
        rw [List.filterMap_cons_some hsome]
        have hkeep : keepElem e = true := by
          simp [keepElem, hb, hk]
        rw [List.filter_cons_of_pos hkeep, List.map_cons, ih]
    · have hkeep : ¬ keepElem e = true := by
        simp only [keepElem, Bool.and_eq_true]
        intro hc
        exact hb hc.1
      rw [List.filter_cons_of_neg hb, List.filter_cons_of_neg hkeep, ih]

/-- C6.  On a well-formed rendered payload the Timed-Text Parser produces a
snippet exactly for every element that carries both timing attributes and
has nonempty decoded trimmed text, in source order; elements missing an
attribute are skipped without aborting the scan, and elements whose decoded
trimmed text is empty are discarded. -/
theorem C6_parser_snippets (es : List XmlElem) (hwf : ∀ e ∈ es, wfElemB e = true) :
    parseTranscriptXml (String.mk (renderXml es)) = (es.filter keepElem).map toSnippet := by
  rw [parseTranscriptXml]
  rw [show (String.mk (renderXml es)).data = renderXml es from rfl]
  rw [scan_render es _ hwf le_rfl]
  rw [List.filterMap_map]
  exact filterMap_keep es

/-- Elements used by the C6 witness: one full element, one missing its
duration, one whose decoded text is empty. -/
def c6Elems : List XmlElem :=
  [⟨some "1.5", some "2.25", "Hello &amp; hi"⟩,
   ⟨some "4", none, "skipped"⟩,
   ⟨some "5", some "6", "  "⟩]

/-- Witness for C6: of the three rendered elements, exactly the first
survives, with decoded text. -/
theorem C6_parser_snippets_witness :
    parseTranscriptXml (String.mk (renderXml c6Elems))
      = [{ text := "Hello & hi", start := "1.5", duration := "2.25" }] := by
  rw [C6_parser_snippets c6Elems (by decide)]
  rfl

/-! ## Caption Track Resolver (routes.ts `extractCaptionTracks`,
lines 1063-1120).  `JSON.parse` is modelled by a recursive-descent parser
for the JSON subset the caption payload uses (strings without escapes,
booleans, arrays, objects, no insignificant whitespace); serialization of
that subset is the test-harness generator for the theorems. -/

/-- A JSON value of the modelled subset. -/
inductive Jsn where
  | str (s : String)
  | bool (b : Bool)
  | arr (elems : List Jsn)
  | obj (fields : List (String × Jsn))

mutual
/-- Canonical serialization of a `Jsn` value. -/
def Jsn.ser : Jsn → List Char
  | .str s => chr 34 :: (s.data ++ [chr 34])
  | .bool true => "true".data
  | .bool false => "false".data
  | .arr es => '[' :: serArr es
  | .obj fs => chr 123 :: serObj fs

/-- Array elements, comma separated, with the closing bracket. -/
def serArr : List Jsn → List Char
  | [] => [']']
  | [e] => e.ser ++ [']']
  | e :: es => e.ser ++ (',' :: serArr es)

/-- Object fields, comma separated, with the closing brace. -/
def serObj : List (String × Jsn) → List Char
  | [] => [chr 125]
  | (k, v) :: fs =>
    chr 34 :: (k.data ++ (chr 34 :: (':' :: (v.ser ++
      (match fs with
       | [] => [chr 125]
       | _ => ',' :: serObj fs)))))
end

/-- A string free of quotes, backslashes and square brackets: it embeds
literally and does not disturb the bracket scan. -/
def strOk (s : String) : Bool :=
  s.data.all (fun c => !(c = chr 34) && !(c = '\\') && !(c = '[') && !(c = ']'))

mutual
/-- Well-formedness of a value for the harness serializer. -/
def Jsn.wf : Jsn → Bool
  | .str s => strOk s
  | .bool _ => true
  | .arr es => wfList es
  | .obj fs => wfFields fs

def wfList : List Jsn → Bool
  | [] => true
  | e :: es => e.wf && wfList es

def wfFields : List (String × Jsn) → Bool
  | [] => true
  | (k, v) :: fs => strOk k && v.wf && wfFields fs
end

/-- Array continuation: after a value, a comma continues, `]` closes. -/
def parseArrAux (parseVal : List Char → Option (Jsn × List Char)) :
    Nat → List Char → Option (List Jsn × List Char)
  | 0, _ => none
  | fuelL + 1, s =>
    match parseVal s with
    | none => none
    | some (v, rest) =>
      match rest with
      | [] => none
      | c :: r2 =>
        if c = ',' then
          match parseArrAux parseVal fuelL r2 with
          | some (es, b) => some (v :: es, b)
          | none => none
        else if c = ']' then some ([v], r2)
        else none

/-- Object continuation: `"key":value`, then comma or closing brace. -/
def parseObjAux (parseVal : List Char → Option (Jsn × List Char)) :
    Nat → List Char → Option (List (String × Jsn) × List Char)
  | 0, _ => none
  | fuelL + 1, s =>
    match s with
    | [] => none
    | c :: rest =>
      if c = chr 34 then
        match takeUntil (chr 34) rest with
        | none => none
        | some (k, r1) =>
          match r1 with
          | [] => none
          | c2 :: r2 =>
            if c2 = ':' then
              match parseVal r2 with
              | none => none
              | some (v, r3) =>
                match r3 with
                | [] => none
                | c4 :: r4 =>
                  if c4 = ',' then
                    match parseObjAux parseVal fuelL r4 with
                    | some (fs, b) => some ((String.mk k, v) :: fs, b)
                    | none => none
                  else if c4 = chr 125 then some ([(String.mk k, v)], r4)
                  else none
            else none
      else none

/-- The recursive-descent value parser, fuel-indexed so it evaluates by
kernel reduction. -/
def parseJ : Nat → List Char → Option (Jsn × List Char)
  | 0, _ => none
  | fuel + 1, s =>
    match s with
    | [] => none
    | c :: rest =>
      if c = chr 34 then
        match takeUntil (chr 34) rest with
        | some (a, b) => some (.str (String.mk a), b)
        | none => none
      else if c = '[' then
        match rest with
        | [] => none
        | c2 :: b2 =>
          if c2 = ']' then some (.arr [], b2)
          else
            match parseArrAux (parseJ fuel) fuel rest with
            | some (es, b) => some (.arr es, b)
            | none => none
      else if c = chr 123 then
        match rest with
        | [] => none
        | c2 :: b2 =>
          if c2 = chr 125 then some (.obj [], b2)
          else
            match parseObjAux (parseJ fuel) fuel rest with
            | some (fs, b) => some (.obj fs, b)
            | none => none
      else if c = 't' then
        match stripLit "rue".data rest with
        | some b => some (.bool true, b)
        | none => none
      else if c = 'f' then
        match stripLit "alse".data rest with
        | some b => some (.bool false, b)
        | none => none
      else none

/-- Model of `JSON.parse`: the whole input must be consumed. -/
def parseJson (s : String) : Option Jsn :=
  match parseJ (s.data.length + 1) s.data with
  | some (v, []) => some v
  | _ => none

/-- JS `indexOf` for a (nonempty) literal substring. -/
def findSub (pat : List Char) : List Char → Option Nat
  | [] => none
  | c :: t =>
    if pat.isPrefixOf (c :: t) then some 0
    else (findSub pat t).map (fun i => i + 1)

/-- JS `indexOf(char, start)`. -/
def findCharFrom (c : Char) (s : List Char) (start : Nat) : Option Nat :=
  (findSub [c] (s.drop start)).map (fun i => i + start)

/-- The balanced-bracket loop of the source: depth up on `[`, down on `]`,
stop when depth returns to zero, give up at the 50000-character window or
the end of the document.  `i` is the absolute index, as in the source. -/
def scanDepth : List Char → Int → Nat → Nat → Option Nat
  | [], _, _, _ => none
  | c :: rest, depth, i, limit =>
    if limit ≤ i then none
    else if c = '[' then scanDepth rest (depth + 1) (i + 1) limit
    else if c = ']' then
      if depth - 1 = 0 then some (i + 1)
      else scanDepth rest (depth - 1) (i + 1) limit
    else scanDepth rest depth (i + 1) limit

/-- Property access `obj?.[key]` on a parsed value; later duplicate keys
win, as in a JS object. -/
def jsonGet (j : Jsn) (key : String) : Option Jsn :=
  match j with
  | .obj fs => (fs.reverse.find? (fun f => f.1 == key)).map (fun f => f.2)
  | _ => none

/-- A whitespace character of the regex `\s` (the subset that occurs). -/
def isWsChar (c : Char) : Bool :=
  c = ' ' || c = '\t' || c = '\n' || c = '\r'

/-- The lazy part `([\s\S]+?)\};`: find the shortest nonempty run followed
by a closing brace and a semicolon. -/
def lazyCapAux (acc : List Char) : List Char → Option (List Char × List Char)
  | [] => none
  | [_] => none
  | c :: c2 :: r =>
    if c = chr 125 ∧ c2 = ';' ∧ acc ≠ [] then some (acc.reverse, r)
    else lazyCapAux (c :: acc) (c2 :: r)

/-- Attempt `var\s+ytInitialPlayerResponse\s*=\s*(\{[\s\S]+?\});` at the
start of the list, returning the captured group. -/
def matchPRAt (s : List Char) : Option (List Char) :=
  match stripLit "var".data s with
  | none => none
  | some s1 =>
    if s1.takeWhile isWsChar = [] then none
    else
      match stripLit "ytInitialPlayerResponse".data (s1.dropWhile isWsChar) with
      | none => none
      | some s2 =>
        match stripLit ['='] (s2.dropWhile isWsChar) with
        | none => none
        | some s4 =>
          match s4.dropWhile isWsChar with
          | [] => none
          | c :: r =>
            if c = chr 123 then
              match lazyCapAux [] r with
              | some (content, _) => some (chr 123 :: (content ++ [chr 125]))
              | none => none
            else none

/-- Leftmost match of the player-response regex. -/
def findPR : List Char → Option (List Char)
  | [] => none
  | c :: t =>
    match matchPRAt (c :: t) with
    | some cap => some cap
    | none => findPR t

/-- `extractCaptionTracks` from the source: method 1 locates the
`"captionTracks":[` marker and balanced-scans the array, parsing the
captured substring; method 2 parses an embedded `ytInitialPlayerResponse`
assignment and descends to its caption-track field; all failures end in the
empty list. -/
def extractCaptionTracks (html : String) : List Jsn :=
  let s := html.data
  let m1 : Option (List Jsn) :=
    match findSub "\"captionTracks\":[".data s with
    | none => none
    | some cts =>
      match findCharFrom '[' s cts with
      | none => none
      | some arrayStart =>
        match scanDepth (s.drop arrayStart) 0 arrayStart (arrayStart + 50000) with
        | none => none
        | some arrayEnd =>
          match parseJson (String.mk ((s.drop arrayStart).take (arrayEnd - arrayStart))) with
          | some (.arr ts) => if ts.length > 0 then some ts else none
          | _ => none
  match m1 with
  | some ts => ts
  | none =>
    match findPR s with
    | none => []
    | some cap =>
      match parseJson (String.mk cap) with
      | none => []
      | some playerData =>
        match ((jsonGet playerData "captions").bind
            (fun j => jsonGet j "playerCaptionsTracklistRenderer")).bind
            (fun j => jsonGet j "captionTracks") with
        | some (.arr ts) => if ts.length > 0 then ts else []
        | _ => []

/-- Square-bracket balance of a character list. -/
def bal (w : List Char) : Int := (w.count '[' : Int) - (w.count ']' : Int)

lemma bal_nil : bal [] = 0 := by simp [bal]

lemma bal_append (a b : List Char) : bal (a ++ b) = bal a + bal b := by
  simp [bal, List.count_append]
  omega

lemma bal_cons_lb (w : List Char) : bal ('[' :: w) = bal w + 1 := by
  simp [bal, List.count_cons]
  omega

lemma bal_cons_rb (w : List Char) : bal (']' :: w) = bal w - 1 := by
  simp [bal, List.count_cons]
  omega

lemma bal_cons_other {c : Char} (h1 : ¬ c = '[') (h2 : ¬ c = ']') (w : List Char) :
    bal (c :: w) = bal w := by
  simp [bal, List.count_cons, h1, h2]

/-- Passing the depth scan through a block that never closes the current
bracket. -/
lemma scanDepth_through (w : List Char) (rest : List Char) (d : Int) (i limit : Nat)
    (hnc : ∀ p q, w = p ++ ']' :: q → d + bal p ≠ 1)
    (hlim : i + w.length ≤ limit) :
    scanDepth (w ++ rest) d i limit = scanDepth rest (d + bal w) (i + w.length) limit := by
  induction w generalizing d i with
  | nil => simp [bal_nil]
  | cons c w ih =>
    have hi : ¬ limit ≤ i := by
      simp only [List.length_cons] at hlim
      omega
    rw [List.cons_append, scanDepth, if_neg hi]
    by_cases hc : c = '['
    · subst hc
      rw [if_pos rfl]
      rw [ih (d + 1) (i + 1)
        (fun p q hpq => by
          have := hnc ('[' :: p) q (by rw [hpq, List.cons_append])
          rw [bal_cons_lb] at this
          omega)
        (by simp only [List.length_cons] at hlim; omega)]
      rw [bal_cons_lb]
      rw [show d + 1 + bal w = d + (bal w + 1) by omega]
      rw [show i + 1 + w.length = i + (w.length + 1) by omega]
      rw [List.length_cons]
    · by_cases hc2 : c = ']'
      · subst hc2
        rw [if_neg (by decide), if_pos rfl]
        have hd : ¬ (d - 1 = 0) := by
          have := hnc [] w rfl
          rw [bal_nil] at this
          omega
        rw [if_neg hd]
        rw [ih (d - 1) (i + 1)
          (fun p q hpq => by
            have := hnc (']' :: p) q (by rw [hpq, List.cons_append])
            rw [bal_cons_rb] at this
            omega)
          (by simp only [List.length_cons] at hlim; omega)]
        rw [bal_cons_rb]
        rw [show d - 1 + bal w = d + (bal w - 1) by omega]
        rw [show i + 1 + w.length = i + (w.length + 1) by omega]
        rw [List.length_cons]
      · rw [if_neg hc, if_neg hc2]
        rw [ih d (i + 1)
          (fun p q hpq => by
            have := hnc (c :: p) q (by rw [hpq, List.cons_append])
            rw [bal_cons_other hc hc2] at this
            exact this)
          (by simp only [List.length_cons] at hlim; omega)]
        rw [bal_cons_other hc hc2]
        rw [show i + 1 + w.length = i + (w.length + 1) by omega]
        rw [List.length_cons]

lemma strOk_mem {s : String} (h : strOk s = true) :
    ∀ c ∈ s.data, ¬ c = chr 34 ∧ ¬ c = '\\' ∧ ¬ c = '[' ∧ ¬ c = ']' := by
  rw [strOk, List.all_eq_true] at h
  intro c hc
  have h2 := h c hc
  simp at h2
  tauto

lemma bal_zero_of_not_mem {w : List Char} (h1 : '[' ∉ w) (h2 : ']' ∉ w) :
    bal w = 0 := by
  simp [bal, List.count_eq_zero_of_not_mem h1, List.count_eq_zero_of_not_mem h2]

/-- A split whose closing bracket cannot lie in the bracket-free prefix. -/
lemma split_clean {A w p q : List Char} (hA : ']' ∉ A)
    (h : A ++ w = p ++ ']' :: q) : ∃ t, p = A ++ t ∧ w = t ++ ']' :: q := by
  rcases List.append_eq_append_iff.mp h with ⟨a, ha1, ha2⟩ | ⟨c, hc1, hc2⟩
  · exact ⟨a, ha1, ha2⟩
  · cases c with
    | nil =>
      refine ⟨[], by simpa using hc1.symm, ?_⟩
      simp at hc2
      simp [hc2]
    | cons x c =>
      exfalso
      apply hA
      rw [hc1]
      have hx : x = ']' := by
        have := hc2
        simp [List.cons_eq_cons] at this
        exact this.1.symm
      rw [hx]
      simp

lemma wfList_cons {e : Jsn} {es : List Jsn} (h : wfList (e :: es) = true) :
    Jsn.wf e = true ∧ wfList es = true := by
  rw [wfList, Bool.and_eq_true] at h
  exact h

lemma wfFields_cons {k : String} {v : Jsn} {fs : List (String × Jsn)}
    (h : wfFields ((k, v) :: fs) = true) :
    strOk k = true ∧ Jsn.wf v = true ∧ wfFields fs = true := by
  rw [wfFields, Bool.and_eq_true, Bool.and_eq_true] at h
  exact ⟨h.1.1, h.1.2, h.2⟩

lemma serBrackets (n : Nat) :
    (∀ v : Jsn, sizeOf v ≤ n → Jsn.wf v = true →
       bal (Jsn.ser v) = 0 ∧ ∀ p q, Jsn.ser v = p ++ ']' :: q → 1 ≤ bal p)
    ∧ (∀ es : List Jsn, sizeOf es ≤ n → wfList es = true →
       bal (serArr es) = -1 ∧ ∀ p q, serArr es = p ++ ']' :: q → 0 ≤ bal p)
    ∧ (∀ fs : List (String × Jsn), sizeOf fs ≤ n → wfFields fs = true →
       bal (serObj fs) = 0 ∧ ∀ p q, serObj fs = p ++ ']' :: q → 1 ≤ bal p) := by
  induction n using Nat.strong_induction_on with
  | _ n ih =>
  refine ⟨?_, ?_, ?_⟩
  · intro v hsize hwf
    match v with
    | .str s =>
      have hm : ∀ c ∈ Jsn.ser (.str s), ¬ c = '[' ∧ ¬ c = ']' := by
        intro c hc
        rw [show Jsn.ser (.str s) = chr 34 :: (s.data ++ [chr 34]) from rfl] at hc
        simp only [List.mem_cons, List.mem_append] at hc
        rcases hc with rfl | hc | rfl | hnil
        · exact ⟨by decide, by decide⟩
        · have := strOk_mem hwf c hc
          exact ⟨this.2.2.1, this.2.2.2⟩
        · exact ⟨by decide, by decide⟩
        · exact absurd hnil (List.not_mem_nil c)
      constructor
      · exact bal_zero_of_not_mem (fun hc => (hm _ hc).1 rfl) (fun hc => (hm _ hc).2 rfl)
      · intro p q hpq
        exfalso
        exact (hm ']' (by rw [hpq]; simp)).2 rfl
    | .bool true =>
      constructor
      · decide
      · intro p q hpq
        exfalso
        have : ']' ∈ "true".data := by
          rw [show "true".data = Jsn.ser (.bool true) from rfl, hpq]
          simp
        exact absurd this (by decide)
    | .bool false =>
      constructor
      · decide
      · intro p q hpq
        exfalso
        have : ']' ∈ "false".data := by
          rw [show "false".data = Jsn.ser (.bool false) from rfl, hpq]
          simp
        exact absurd this (by decide)
    | .arr es =>
      have hlt : sizeOf es < n := by
        simp at hsize
        omega
      obtain ⟨hb, hsplit⟩ := (ih _ hlt).2.1 es le_rfl (by
        rw [show Jsn.wf (.arr es) = wfList es from rfl] at hwf
        exact hwf)
      constructor
      · rw [show Jsn.ser (.arr es) = '[' :: serArr es from rfl, bal_cons_lb, hb]
        decide
      · intro p q hpq
        rw [show Jsn.ser (.arr es) = '[' :: serArr es from rfl] at hpq
        cases p with
        | nil => simp at hpq
        | cons c p =>
          rw [List.cons_append] at hpq
          rw [List.cons_eq_cons] at hpq
          obtain ⟨hc, hrest⟩ := hpq
          subst hc
          have := hsplit p q hrest
          rw [bal_cons_lb]
          omega
    | .obj fs =>
      have hlt : sizeOf fs < n := by
        simp at hsize
        omega
      obtain ⟨hb, hsplit⟩ := (ih _ hlt).2.2 fs le_rfl (by
        rw [show Jsn.wf (.obj fs) = wfFields fs from rfl] at hwf
        exact hwf)
      constructor
      · rw [show Jsn.ser (.obj fs) = chr 123 :: serObj fs from rfl,
          bal_cons_other (by decide) (by decide), hb]
      · intro p q hpq
        rw [show Jsn.ser (.obj fs) = chr 123 :: serObj fs from rfl] at hpq
        cases p with
        | nil =>
          simp [List.cons_eq_cons] at hpq
          exact absurd hpq.1 (by decide)
        | cons c p =>
          rw [List.cons_append, List.cons_eq_cons] at hpq
          obtain ⟨hc, hrest⟩ := hpq
          subst hc
          have := hsplit p q hrest
          rw [bal_cons_other (by decide) (by decide)]
          exact this
  · intro es hsize hwf
    match es with
    | [] =>
      constructor
      · decide
      · intro p q hpq
        cases p with
        | nil => simp [bal_nil]
        | cons c p =>
          rw [show serArr [] = [']'] from rfl] at hpq
          rw [List.cons_append, List.cons_eq_cons] at hpq
          exact absurd (congrArg List.length hpq.2) (by simp only [List.length_nil, List.length_append, List.length_cons]; omega)
    | [e] =>
      have hwfe : Jsn.wf e = true := (wfList_cons hwf).1
      have hlt : sizeOf e < n := by
        simp at hsize
        omega
      obtain ⟨hb, hsplit⟩ := (ih _ hlt).1 e le_rfl hwfe
      have hser : serArr [e] = Jsn.ser e ++ [']'] := rfl
      constructor
      · rw [hser, bal_append, hb]
        decide
      · intro p q hpq
        rw [hser] at hpq
        rcases List.append_eq_append_iff.mp hpq with ⟨a, ha1, ha2⟩ | ⟨c, hc1, hc2⟩
        · cases a with
          | nil =>
            simp at ha1
            rw [ha1, hb]
          | cons x a =>
            exfalso
            rw [List.cons_append] at ha2
            rw [List.cons_eq_cons] at ha2
            exact absurd (congrArg List.length ha2.2) (by simp only [List.length_nil, List.length_append, List.length_cons]; omega)
        · cases c with
          | nil =>
            simp at hc1
            have hp : p = Jsn.ser e := by
              rw [hc1]
            rw [hp, hb]
          | cons x c =>
            rw [List.cons_append, List.cons_eq_cons] at hc2
            obtain ⟨hx, _⟩ := hc2
            rw [← hx] at hc1
            have := hsplit p c hc1
            omega
    | e :: e2 :: es =>
      have hwf1 := wfList_cons hwf
      have hwfe : Jsn.wf e = true := hwf1.1
      have hwftail : wfList (e2 :: es) = true := hwf1.2
      have hlt1 : sizeOf e < n := by
        simp at hsize
        omega
      have hlt2 : sizeOf (e2 :: es) < n := by
        simp at hsize ⊢
        omega
      obtain ⟨hb, hsplit⟩ := (ih _ hlt1).1 e le_rfl hwfe
      obtain ⟨hbt, hsplitt⟩ := (ih _ hlt2).2.1 (e2 :: es) le_rfl hwftail
      have hser : serArr (e :: e2 :: es) = Jsn.ser e ++ (',' :: serArr (e2 :: es)) := rfl
      constructor
      · rw [hser, bal_append, hb, bal_cons_other (by decide) (by decide), hbt]
        decide
      · intro p q hpq
        rw [hser] at hpq
        rcases List.append_eq_append_iff.mp hpq with ⟨a, ha1, ha2⟩ | ⟨c, hc1, hc2⟩
        · cases a with
          | nil =>
            exfalso
            simp only [List.nil_append, List.cons_eq_cons] at ha2
            exact absurd ha2.1 (by decide)
          | cons x a =>
            rw [List.cons_append, List.cons_eq_cons] at ha2
            obtain ⟨hx, hrest⟩ := ha2
            have := hsplitt a q hrest
            rw [ha1, bal_append, hb, ← hx, bal_cons_other (by decide) (by decide)]
            omega
        · cases c with
          | nil =>
            exfalso
            simp only [List.nil_append, List.cons_eq_cons] at hc2
            exact absurd hc2.1 (by decide)
          | cons x c =>
            rw [List.cons_append, List.cons_eq_cons] at hc2
            obtain ⟨hx, _⟩ := hc2
            rw [← hx] at hc1
            have := hsplit p c hc1
            omega
  · intro fs hsize hwf
    match fs with
    | [] =>
      constructor
      · decide
      · intro p q hpq
        exfalso
        have : ']' ∈ serObj ([] : List (String × Jsn)) := by
          rw [hpq]
          simp
        exact absurd this (by decide)
    | (k, v) :: fs =>
      obtain ⟨hk, hwfv, hwffs⟩ := wfFields_cons hwf
      have hltv : sizeOf v < n := by
        simp at hsize
        omega
      obtain ⟨hbv, hsplitv⟩ := (ih _ hltv).1 v le_rfl hwfv
      have hA : ∀ c ∈ chr 34 :: (k.data ++ [chr 34, ':']), ¬ c = '[' ∧ ¬ c = ']' := by
        intro c hc
        simp only [List.mem_cons, List.mem_append] at hc
        rcases hc with rfl | hc | hc
        · exact ⟨by decide, by decide⟩
        · have := strOk_mem hk c hc
          exact ⟨this.2.2.1, this.2.2.2⟩
        · simp at hc
          rcases hc with rfl | rfl
          · exact ⟨by decide, by decide⟩
          · exact ⟨by decide, by decide⟩
      have hbA : bal (chr 34 :: (k.data ++ [chr 34, ':'])) = 0 :=
        bal_zero_of_not_mem (fun hc => (hA _ hc).1 rfl) (fun hc => (hA _ hc).2 rfl)
      cases fs with
      | nil =>
        have hser : serObj [(k, v)]
            = (chr 34 :: (k.data ++ [chr 34, ':'])) ++ (Jsn.ser v ++ [chr 125]) := by
          rw [show serObj [(k, v)]
            = chr 34 :: (k.data ++ (chr 34 :: (':' :: (Jsn.ser v ++ [chr 125])))) from rfl]
          simp
        constructor
        · rw [hser, bal_append, hbA, bal_append, hbv]
          decide
        · intro p q hpq
          rw [hser] at hpq
          obtain ⟨t, hp, hw⟩ := split_clean (fun hc => (hA _ hc).2 rfl) hpq
          rcases List.append_eq_append_iff.mp hw with ⟨a, ha1, ha2⟩ | ⟨c, hc1, hc2⟩
          · exfalso
            cases a with
            | nil =>
              simp only [List.nil_append, List.cons_eq_cons] at ha2
              exact absurd ha2.1 (by decide)
            | cons x a =>
              rw [List.cons_append, List.cons_eq_cons] at ha2
              exact absurd (congrArg List.length ha2.2)
                (by simp only [List.length_nil, List.length_append, List.length_cons]; omega)
          · cases c with
            | nil =>
              exfalso
              simp only [List.nil_append] at hc2
              rw [show ([chr 125] : List Char) = chr 125 :: [] from rfl,
                List.cons_eq_cons] at hc2
              exact absurd hc2.1.symm (by decide)
            | cons x c =>
              rw [List.cons_append, List.cons_eq_cons] at hc2
              obtain ⟨hx, _⟩ := hc2
              rw [← hx] at hc1
              have := hsplitv t c hc1
              rw [hp, bal_append, hbA]
              omega
      | cons f2 fs2 =>
        have hltfs : sizeOf (f2 :: fs2) < n := by
          simp at hsize ⊢
          omega
        obtain ⟨hbfs, hsplitfs⟩ := (ih _ hltfs).2.2 (f2 :: fs2) le_rfl hwffs
        have hser : serObj ((k, v) :: f2 :: fs2)
            = (chr 34 :: (k.data ++ [chr 34, ':']))
              ++ (Jsn.ser v ++ (',' :: serObj (f2 :: fs2))) := by
          rw [show serObj ((k, v) :: f2 :: fs2)
            = chr 34 :: (k.data ++ (chr 34 :: (':' :: (Jsn.ser v
                ++ (',' :: serObj (f2 :: fs2)))))) from rfl]
          simp
        constructor
        · rw [hser, bal_append, hbA, bal_append, hbv,
            bal_cons_other (by decide) (by decide), hbfs]
          decide
        · intro p q hpq
          rw [hser] at hpq
          obtain ⟨t, hp, hw⟩ := split_clean (fun hc => (hA _ hc).2 rfl) hpq
          rcases List.append_eq_append_iff.mp hw with ⟨a, ha1, ha2⟩ | ⟨c, hc1, hc2⟩
          · cases a with
            | nil =>
              exfalso
              simp only [List.nil_append, List.cons_eq_cons] at ha2
              exact absurd ha2.1 (by decide)
            | cons x a =>
              rw [List.cons_append, List.cons_eq_cons] at ha2
              obtain ⟨hx, hrest⟩ := ha2
              have := hsplitfs a q hrest
              rw [hp, bal_append, hbA, ha1, bal_append, hbv, ← hx,
                bal_cons_other (by decide) (by decide)]
              omega
          · cases c with
            | nil =>
              exfalso
              simp only [List.nil_append, List.cons_eq_cons] at hc2
              exact absurd hc2.1 (by decide)
            | cons x c =>
              rw [List.cons_append, List.cons_eq_cons] at hc2
              obtain ⟨hx, _⟩ := hc2
              rw [← hx] at hc1
              have := hsplitv t c hc1
              rw [hp, bal_append, hbA]
              omega

/-- The depth scan entered at depth one consumes a serialized array body
exactly, stopping at its closing bracket. -/
lemma scanDepth_serArr (es : List Jsn) : ∀ (rest : List Char) (i limit : Nat),
    wfList es = true → i + (serArr es).length ≤ limit →
    scanDepth (serArr es ++ rest) 1 i limit = some (i + (serArr es).length) := by
  induction es with
  | nil =>
    intro rest i limit hwf hlim
    rw [show serArr [] = [']'] from rfl] at hlim ⊢
    rw [List.cons_append, scanDepth]
    rw [if_neg (by simp at hlim; omega), if_neg (by decide), if_pos rfl,
      if_pos (by decide)]
    simp
  | cons e es ih =>
    intro rest i limit hwf hlim
    obtain ⟨hwfe, hwftail⟩ := wfList_cons hwf
    obtain ⟨hb, hsplit⟩ := (serBrackets (sizeOf e)).1 e le_rfl hwfe
    cases es with
    | nil =>
      rw [show serArr [e] = Jsn.ser e ++ [']'] from rfl] at hlim ⊢
      rw [List.append_assoc]
      rw [scanDepth_through (Jsn.ser e) ([']'] ++ rest) 1 i limit
        (fun p q hpq => by have := hsplit p q hpq; omega)
        (by simp only [List.length_append, List.length_cons, List.length_nil] at hlim; omega)]
      rw [hb, show (1 : Int) + 0 = 1 from rfl]
      rw [show ([']'] ++ rest : List Char) = ']' :: rest from rfl]
      rw [scanDepth]
      rw [if_neg (by simp only [List.length_append, List.length_cons, List.length_nil] at hlim; omega),
        if_neg (by decide), if_pos rfl, if_pos (by decide)]
      simp only [List.length_append, List.length_cons, List.length_nil]
      congr 1
      try omega
    | cons e2 es2 =>
      rw [show serArr (e :: e2 :: es2) = Jsn.ser e ++ (',' :: serArr (e2 :: es2)) from rfl]
        at hlim ⊢
      rw [List.append_assoc]
      rw [scanDepth_through (Jsn.ser e) ((',' :: serArr (e2 :: es2)) ++ rest) 1 i limit
        (fun p q hpq => by have := hsplit p q hpq; omega)
        (by simp only [List.length_append, List.length_cons] at hlim; omega)]
      rw [hb, show (1 : Int) + 0 = 1 from rfl]
      rw [List.cons_append, scanDepth]
      rw [if_neg (by simp only [List.length_append, List.length_cons] at hlim; omega),
        if_neg (by decide), if_neg (by decide)]
      rw [ih rest (i + (Jsn.ser e).length + 1) limit hwftail
        (by simp only [List.length_append, List.length_cons] at hlim; omega)]
      simp only [List.length_append, List.length_cons]
      congr 1
      try omega

/-- The depth scan entered at depth zero consumes a whole serialized array,
returning the index one past its closing bracket. -/
lemma scanDepth_serFull (ts : List Jsn) (suf : List Char) (i limit : Nat)
    (hwf : wfList ts = true) (hlim : i + (Jsn.ser (Jsn.arr ts)).length ≤ limit) :
    scanDepth (Jsn.ser (Jsn.arr ts) ++ suf) 0 i limit
      = some (i + (Jsn.ser (Jsn.arr ts)).length) := by
  rw [show Jsn.ser (Jsn.arr ts) = '[' :: serArr ts from rfl] at hlim ⊢
  rw [List.cons_append, scanDepth]
  rw [if_neg (by simp only [List.length_cons] at hlim; omega), if_pos rfl]
  rw [show (0 : Int) + 1 = 1 from rfl]
  rw [scanDepth_serArr ts suf (i + 1) limit hwf
    (by simp only [List.length_cons] at hlim; omega)]
  simp only [List.length_cons]
  congr 1
  try omega

lemma ser_head (v : Jsn) : ∃ c t, Jsn.ser v = c :: t ∧ ¬ c = ']' ∧ ¬ c = chr 125 := by
  match v with
  | .str s => exact ⟨chr 34, _, rfl, by decide, by decide⟩
  | .bool true => exact ⟨'t', _, rfl, by decide, by decide⟩
  | .bool false => exact ⟨'f', _, rfl, by decide, by decide⟩
  | .arr es => exact ⟨'[', serArr es, rfl, by decide, by decide⟩
  | .obj fs => exact ⟨chr 123, serObj fs, rfl, by decide, by decide⟩

lemma ser_le_serArr : ∀ (es : List Jsn), ∀ e ∈ es, (Jsn.ser e).length ≤ (serArr es).length := by
  intro es
  induction es with
  | nil => intro e he; cases he
  | cons a es ih =>
    intro e he
    cases es with
    | nil =>
      rcases List.mem_singleton.mp he with rfl
      rw [show serArr [e] = Jsn.ser e ++ [']'] from rfl]
      simp
    | cons a2 es2 =>
      rw [show serArr (a :: a2 :: es2) = Jsn.ser a ++ (',' :: serArr (a2 :: es2)) from rfl]
      rcases List.mem_cons.mp he with rfl | hmem
      · simp
      · have := ih e hmem
        simp only [List.length_append, List.length_cons]
        omega

lemma len_le_serArr : ∀ (es : List Jsn), es.length ≤ (serArr es).length := by
  intro es
  induction es with
  | nil => simp [show serArr ([] : List Jsn) = [']'] from rfl]
  | cons a es ih =>
    cases es with
    | nil =>
      rw [show serArr [a] = Jsn.ser a ++ [']'] from rfl]
      simp
    | cons a2 es2 =>
      rw [show serArr (a :: a2 :: es2) = Jsn.ser a ++ (',' :: serArr (a2 :: es2)) from rfl]
      have := ih
      simp only [List.length_cons] at this ⊢
      simp only [List.length_append, List.length_cons]
      omega

lemma ser_le_serObj : ∀ (fs : List (String × Jsn)), ∀ f ∈ fs,
    (Jsn.ser f.2).length ≤ (serObj fs).length := by
  intro fs
  induction fs with
  | nil => intro f hf; cases hf
  | cons a fs ih =>
    intro f hf
    obtain ⟨k, v⟩ := a
    cases fs with
    | nil =>
      rcases List.mem_singleton.mp hf with rfl
      rw [show serObj [(k, v)]
        = chr 34 :: (k.data ++ (chr 34 :: (':' :: (Jsn.ser v ++ [chr 125])))) from rfl]
      simp only [List.length_append, List.length_cons]
      omega
    | cons f2 fs2 =>
      rw [show serObj ((k, v) :: f2 :: fs2)
        = chr 34 :: (k.data ++ (chr 34 :: (':' :: (Jsn.ser v
            ++ (',' :: serObj (f2 :: fs2)))))) from rfl]
      rcases List.mem_cons.mp hf with rfl | hmem
      · simp only [List.length_append, List.length_cons]
        omega
      · have := ih f hmem
        simp only [List.length_append, List.length_cons]
        omega

lemma len_le_serObj : ∀ (fs : List (String × Jsn)), fs.length ≤ (serObj fs).length := by
  intro fs
  induction fs with
  | nil => simp [show serObj ([] : List (String × Jsn)) = [chr 125] from rfl]
  | cons a fs ih =>
    obtain ⟨k, v⟩ := a
    cases fs with
    | nil =>
      rw [show serObj [(k, v)]
        = chr 34 :: (k.data ++ (chr 34 :: (':' :: (Jsn.ser v ++ [chr 125])))) from rfl]
      simp only [List.length_append, List.length_cons, List.length_singleton, List.length_nil]
      omega
    | cons f2 fs2 =>
      rw [show serObj ((k, v) :: f2 :: fs2)
        = chr 34 :: (k.data ++ (chr 34 :: (':' :: (Jsn.ser v
            ++ (',' :: serObj (f2 :: fs2)))))) from rfl]
      have := ih
      simp only [List.length_append, List.length_cons] at this ⊢
      omega

lemma parseArrAux_ser (fuelV : Nat)
    (hP : ∀ (v : Jsn) (r : List Char), Jsn.wf v = true → (Jsn.ser v).length ≤ fuelV →
      parseJ fuelV (Jsn.ser v ++ r) = some (v, r)) :
    ∀ (es : List Jsn) (fuelL : Nat) (rest : List Char),
      es ≠ [] → wfList es = true →
      (∀ e ∈ es, (Jsn.ser e).length ≤ fuelV) →
      es.length ≤ fuelL →
      parseArrAux (parseJ fuelV) fuelL (serArr es ++ rest) = some (es, rest) := by
  intro es
  induction es with
  | nil => intro fuelL rest hne; exact absurd rfl hne
  | cons e es ih =>
    intro fuelL rest hne hwf helem hlen
    obtain ⟨hwfe, hwftail⟩ := wfList_cons hwf
    cases fuelL with
    | zero => simp at hlen
    | succ g =>
      cases es with
      | nil =>
        rw [show serArr [e] ++ rest = Jsn.ser e ++ (']' :: rest) by
          rw [show serArr [e] = Jsn.ser e ++ [']'] from rfl]
          simp]
        simp only [parseArrAux]
        simp only [hP e (']' :: rest) hwfe (helem e (List.mem_cons_self e []))]
        simp
      | cons e2 es2 =>
        rw [show serArr (e :: e2 :: es2) ++ rest
            = Jsn.ser e ++ (',' :: (serArr (e2 :: es2) ++ rest)) by
          rw [show serArr (e :: e2 :: es2)
            = Jsn.ser e ++ (',' :: serArr (e2 :: es2)) from rfl]
          simp]
        simp only [parseArrAux]
        simp only [hP e (',' :: (serArr (e2 :: es2) ++ rest)) hwfe
          (helem e (List.mem_cons_self e (e2 :: es2)))]
        rw [ih g rest (by simp) hwftail
          (fun x hx => helem x (List.mem_cons_of_mem _ hx))
          (by simp only [List.length_cons] at hlen ⊢; omega)]
        simp

lemma parseObjAux_ser (fuelV : Nat)
    (hP : ∀ (v : Jsn) (r : List Char), Jsn.wf v = true → (Jsn.ser v).length ≤ fuelV →
      parseJ fuelV (Jsn.ser v ++ r) = some (v, r)) :
    ∀ (fs : List (String × Jsn)) (fuelL : Nat) (rest : List Char),
      fs ≠ [] → wfFields fs = true →
      (∀ f ∈ fs, (Jsn.ser f.2).length ≤ fuelV) →
      fs.length ≤ fuelL →
      parseObjAux (parseJ fuelV) fuelL (serObj fs ++ rest) = some (fs, rest) := by
  intro fs
  induction fs with
  | nil => intro fuelL rest hne; exact absurd rfl hne
  | cons a fs ih =>
    intro fuelL rest hne hwf helem hlen
    obtain ⟨k, v⟩ := a
    obtain ⟨hk, hwfv, hwffs⟩ := wfFields_cons hwf
    cases fuelL with
    | zero => simp at hlen
    | succ g =>
      cases fs with
      | nil =>
        rw [show serObj [(k, v)] ++ rest
            = chr 34 :: (k.data ++ (chr 34 :: (':' :: (Jsn.ser v ++ (chr 125 :: rest))))) by
          rw [show serObj [(k, v)]
            = chr 34 :: (k.data ++ (chr 34 :: (':' :: (Jsn.ser v ++ [chr 125])))) from rfl]
          simp]
        simp only [parseObjAux]
        simp only [takeUntil_no_stop (chr 34) k.data
          (':' :: (Jsn.ser v ++ (chr 125 :: rest)))
          (fun c hc => (strOk_mem hk c hc).1)]
        simp only [hP v (chr 125 :: rest) hwfv (helem (k, v) (List.mem_cons_self _ []))]
        simp
        intro h
        exact absurd h (by decide)
      | cons f2 fs2 =>
        rw [show serObj ((k, v) :: f2 :: fs2) ++ rest
            = chr 34 :: (k.data ++ (chr 34 :: (':' :: (Jsn.ser v
                ++ (',' :: (serObj (f2 :: fs2) ++ rest)))))) by
          rw [show serObj ((k, v) :: f2 :: fs2)
            = chr 34 :: (k.data ++ (chr 34 :: (':' :: (Jsn.ser v
                ++ (',' :: serObj (f2 :: fs2)))))) from rfl]
          simp]
        simp only [parseObjAux]
        simp only [takeUntil_no_stop (chr 34) k.data
          (':' :: (Jsn.ser v ++ (',' :: (serObj (f2 :: fs2) ++ rest))))
          (fun c hc => (strOk_mem hk c hc).1)]
        simp only [hP v (',' :: (serObj (f2 :: fs2) ++ rest)) hwfv
          (helem (k, v) (List.mem_cons_self _ _))]
        rw [ih g rest (by simp) hwffs
          (fun x hx => helem x (List.mem_cons_of_mem _ hx))
          (by simp only [List.length_cons] at hlen ⊢; omega)]
        simp

/-- The fuel-indexed value parser inverts the serializer on well-formed
values, leaving the remainder untouched. -/
lemma parseJ_ser : ∀ (fuel : Nat) (v : Jsn) (r : List Char),
    Jsn.wf v = true → (Jsn.ser v).length ≤ fuel →
    parseJ fuel (Jsn.ser v ++ r) = some (v, r) := by
  intro fuel
  induction fuel using Nat.strong_induction_on with
  | _ fuel ih =>
  intro v r hwf hlen
  cases fuel with
  | zero =>
    obtain ⟨c, t, hct, _, _⟩ := ser_head v
    rw [hct] at hlen
    simp at hlen
  | succ f =>
    have hihf : ∀ (v : Jsn) (r : List Char), Jsn.wf v = true →
        (Jsn.ser v).length ≤ f → parseJ f (Jsn.ser v ++ r) = some (v, r) :=
      fun v r hw hl => ih f (Nat.lt_succ_self f) v r hw hl
    match v with
    | .str s =>
      rw [show Jsn.ser (.str s) ++ r = chr 34 :: (s.data ++ (chr 34 :: r)) by
        rw [show Jsn.ser (.str s) = chr 34 :: (s.data ++ [chr 34]) from rfl]
        simp]
      simp only [parseJ]
      rw [if_pos True.intro]
      simp only [takeUntil_no_stop (chr 34) s.data r
        (fun c hc => (strOk_mem hwf c hc).1)]
    | .bool true =>
      rw [show Jsn.ser (.bool true) ++ r = 't' :: ("rue".data ++ r) from rfl]
      simp only [parseJ]
      rw [if_pos True.intro]
      simp only [stripLit_pre]
      rw [if_neg (by decide : ¬ ('t' = chr 34)), if_neg (by decide : ¬ ('t' = '[')),
        if_neg (by decide : ¬ ('t' = chr 123))]
    | .bool false =>
      rw [show Jsn.ser (.bool false) ++ r = 'f' :: ("alse".data ++ r) from rfl]
      simp only [parseJ]
      rw [if_pos True.intro]
      simp only [stripLit_pre]
      rw [if_neg (by decide : ¬ ('f' = chr 34)), if_neg (by decide : ¬ ('f' = '[')),
        if_neg (by decide : ¬ ('f' = chr 123)), if_neg (by decide : ¬ ('f' = 't'))]
    | .arr es =>
      have hwfl : wfList es = true := hwf
      have hlen2 : (serArr es).length ≤ f := by
        rw [show Jsn.ser (.arr es) = '[' :: serArr es from rfl] at hlen
        simp only [List.length_cons] at hlen
        omega
      rw [show Jsn.ser (.arr es) ++ r = '[' :: (serArr es ++ r) by
        rw [show Jsn.ser (.arr es) = '[' :: serArr es from rfl]
        simp]
      cases es with
      | nil => rfl
      | cons e es2 =>
        obtain ⟨c, t, hct, hc1, _⟩ := ser_head e
        have hP2 : parseArrAux (parseJ f) f (serArr (e :: es2) ++ r)
            = some (e :: es2, r) :=
          parseArrAux_ser f hihf (e :: es2) f r (by simp) hwfl
            (fun x hx => le_trans (ser_le_serArr (e :: es2) x hx) hlen2)
            (le_trans (len_le_serArr (e :: es2)) hlen2)
        cases es2 with
        | nil =>
          have hsplit : serArr [e] ++ r = c :: (t ++ (']' :: r)) := by
            rw [show serArr [e] = Jsn.ser e ++ [']'] from rfl, hct]
            simp
          rw [hsplit] at hP2 ⊢
          simp only [parseJ, hP2]
          rw [if_neg (by decide : ¬ ('[' = chr 34)), if_pos True.intro, if_neg hc1]
        | cons e2 es3 =>
          have hsplit : serArr (e :: e2 :: es3) ++ r
              = c :: (t ++ (',' :: (serArr (e2 :: es3) ++ r))) := by
            rw [show serArr (e :: e2 :: es3)
              = Jsn.ser e ++ (',' :: serArr (e2 :: es3)) from rfl, hct]
            simp
          rw [hsplit] at hP2 ⊢
          simp only [parseJ, hP2]
          rw [if_neg (by decide : ¬ ('[' = chr 34)), if_pos True.intro, if_neg hc1]
    | .obj fs =>
      have hwff : wfFields fs = true := hwf
      have hlen2 : (serObj fs).length ≤ f := by
        rw [show Jsn.ser (.obj fs) = chr 123 :: serObj fs from rfl] at hlen
        simp only [List.length_cons] at hlen
        omega
      rw [show Jsn.ser (.obj fs) ++ r = chr 123 :: (serObj fs ++ r) by
        rw [show Jsn.ser (.obj fs) = chr 123 :: serObj fs from rfl]
        simp]
      cases fs with
      | nil => rfl
      | cons a fs2 =>
        obtain ⟨k, v2⟩ := a
        have hP2 : parseObjAux (parseJ f) f (serObj ((k, v2) :: fs2) ++ r)
            = some ((k, v2) :: fs2, r) :=
          parseObjAux_ser f hihf ((k, v2) :: fs2) f r (by simp) hwff
            (fun x hx => le_trans (ser_le_serObj ((k, v2) :: fs2) x hx) hlen2)
            (le_trans (len_le_serObj ((k, v2) :: fs2)) hlen2)
        cases fs2 with
        | nil =>
          have hsplit : serObj [(k, v2)] ++ r
              = chr 34 :: (k.data ++ (chr 34 :: (':' :: (Jsn.ser v2 ++ (chr 125 :: r))))) := by
            rw [show serObj [(k, v2)]
              = chr 34 :: (k.data ++ (chr 34 :: (':' :: (Jsn.ser v2 ++ [chr 125])))) from rfl]
            simp
          rw [hsplit] at hP2 ⊢
          simp only [parseJ, hP2]
          rw [if_neg (by decide : ¬ (chr 123 = chr 34)),
            if_neg (by decide : ¬ (chr 123 = '[')), if_pos True.intro,
            if_neg (by decide : ¬ (chr 34 = chr 125))]
        | cons f2 fs3 =>
          have hsplit : serObj ((k, v2) :: f2 :: fs3) ++ r
              = chr 34 :: (k.data ++ (chr 34 :: (':' :: (Jsn.ser v2
                  ++ (',' :: (serObj (f2 :: fs3) ++ r)))))) := by
            rw [show serObj ((k, v2) :: f2 :: fs3)
              = chr 34 :: (k.data ++ (chr 34 :: (':' :: (Jsn.ser v2
                  ++ (',' :: serObj (f2 :: fs3)))))) from rfl]
            simp
          rw [hsplit] at hP2 ⊢
          simp only [parseJ, hP2]
          rw [if_neg (by decide : ¬ (chr 123 = chr 34)),
            if_neg (by decide : ¬ (chr 123 = '[')), if_pos True.intro,
            if_neg (by decide : ¬ (chr 34 = chr 125))]

/-- `JSON.parse` inverts the serializer on well-formed values. -/
lemma parseJson_ser (v : Jsn) (hwf : Jsn.wf v = true) :
    parseJson (String.mk (Jsn.ser v)) = some v := by
  rw [parseJson]
  have h := parseJ_ser ((Jsn.ser v).length + 1) v [] hwf (by omega)
  rw [List.append_nil] at h
  rw [show (String.mk (Jsn.ser v)).data = Jsn.ser v from rfl]
  simp only [h]

/-- `indexOf` finds the first occurrence: prefix match at `n`, none before. -/
lemma findSub_first (pat : List Char) (hpat : pat ≠ []) :
    ∀ (n : Nat) (s : List Char), pat.isPrefixOf (s.drop n) = true →
      (∀ i < n, ¬ pat.isPrefixOf (s.drop i) = true) →
      findSub pat s = some n := by
  intro n
  induction n with
  | zero =>
    intro s hocc hnot
    cases s with
    | nil =>
      rw [List.drop_nil] at hocc
      cases pat with
      | nil => exact absurd rfl hpat
      | cons p ps => simp [List.isPrefixOf] at hocc
    | cons c t =>
      rw [List.drop_zero] at hocc
      rw [findSub, if_pos hocc]
  | succ n ih =>
    intro s hocc hnot
    cases s with
    | nil =>
      rw [List.drop_nil] at hocc
      cases pat with
      | nil => exact absurd rfl hpat
      | cons p ps => simp [List.isPrefixOf] at hocc
    | cons c t =>
      have h0 : ¬ pat.isPrefixOf (c :: t) = true := hnot 0 (Nat.succ_pos n)
      rw [findSub, if_neg h0]
      rw [ih t hocc (fun i hi => hnot (i + 1) (by omega))]
      rfl

/-- `indexOf` of a single character lying right after a block free of it. -/
lemma findSub_single_after (c : Char) (A Z : List Char) (hA : c ∉ A) :
    findSub [c] (A ++ (c :: Z)) = some A.length := by
  induction A with
  | nil =>
    rw [List.nil_append, findSub, if_pos (by simp [List.isPrefixOf])]
    rfl
  | cons a A ih =>
    have hac : ¬ c = a := fun h => hA (h ▸ List.mem_cons_self a A)
    have hpre : ¬ ([c].isPrefixOf (a :: (A ++ (c :: Z)))) = true := by
      simp [List.isPrefixOf, hac]
    rw [List.cons_append, findSub, if_neg hpre,
      ih (fun h => hA (List.mem_cons_of_mem a h))]
    rfl

/-- C3: for every well-formed payload embedding a caption-track array after
the `"captionTracks":[` marker — nested bracketed structures included — the
resolver locates the marker, balanced-scans to the matching close bracket,
parses the captured substring and returns exactly the tracks present, in
source order.  `pre` is the document before the marker (its first marker
occurrence being the one the resolver finds), `suf` the rest of the
document, and the array fits the 50000-character scan window. -/
theorem C3_resolver_balanced_scan (pre suf : List Char) (ts : List Jsn)
    (hne : ts ≠ [])
    (hwf : wfList ts = true)
    (hsize : (Jsn.ser (Jsn.arr ts)).length ≤ 50000)
    (hfirst : ∀ i < pre.length,
      ¬ ("\"captionTracks\":[".data).isPrefixOf
        ((pre ++ ("\"captionTracks\":".data ++ (Jsn.ser (Jsn.arr ts) ++ suf))).drop i)
        = true) :
    extractCaptionTracks (String.mk
      (pre ++ ("\"captionTracks\":".data ++ (Jsn.ser (Jsn.arr ts) ++ suf))))
      = ts := by
  have hlit : "\"captionTracks\":[".data = "\"captionTracks\":".data ++ ['['] := rfl
  have hmarker : findSub ("\"captionTracks\":[".data)
      (pre ++ ("\"captionTracks\":".data ++ (Jsn.ser (Jsn.arr ts) ++ suf)))
      = some pre.length := by
    apply findSub_first _ (by decide) pre.length _ ?_ hfirst
    rw [List.drop_left]
    rw [List.isPrefixOf_iff_prefix]
    refine ⟨serArr ts ++ suf, ?_⟩
    rw [hlit, List.append_assoc]
    rw [show Jsn.ser (Jsn.arr ts) = '[' :: serArr ts from rfl]
    simp
  have hdrop : (pre ++ ("\"captionTracks\":".data ++ (Jsn.ser (Jsn.arr ts) ++ suf))).drop
      pre.length = "\"captionTracks\":".data ++ (Jsn.ser (Jsn.arr ts) ++ suf) :=
    List.drop_left pre _
  have hchar : findCharFrom '['
      (pre ++ ("\"captionTracks\":".data ++ (Jsn.ser (Jsn.arr ts) ++ suf)))
      pre.length = some (16 + pre.length) := by
    rw [findCharFrom, hdrop]
    rw [show Jsn.ser (Jsn.arr ts) = '[' :: serArr ts from rfl]
    rw [show ("\"captionTracks\":".data ++ (('[' :: serArr ts) ++ suf))
        = "\"captionTracks\":".data ++ ('[' :: (serArr ts ++ suf)) by simp]
    rw [findSub_single_after '[' ("\"captionTracks\":".data) (serArr ts ++ suf)
      (by decide)]
    rfl
  have hdrop2 : (pre ++ ("\"captionTracks\":".data ++ (Jsn.ser (Jsn.arr ts) ++ suf))).drop
      (16 + pre.length) = Jsn.ser (Jsn.arr ts) ++ suf := by
    rw [show pre ++ ("\"captionTracks\":".data ++ (Jsn.ser (Jsn.arr ts) ++ suf))
        = (pre ++ "\"captionTracks\":".data) ++ (Jsn.ser (Jsn.arr ts) ++ suf) by simp]
    exact List.drop_left' (by simp; omega)
  have hscan : scanDepth
      ((pre ++ ("\"captionTracks\":".data ++ (Jsn.ser (Jsn.arr ts) ++ suf))).drop
        (16 + pre.length)) 0 (16 + pre.length) (16 + pre.length + 50000)
      = some (16 + pre.length + (Jsn.ser (Jsn.arr ts)).length) := by
    rw [hdrop2]
    exact scanDepth_serFull ts suf (16 + pre.length) (16 + pre.length + 50000) hwf
      (by omega)
  have htake : ((pre ++ ("\"captionTracks\":".data ++ (Jsn.ser (Jsn.arr ts) ++ suf))).drop
        (16 + pre.length)).take
      (16 + pre.length + (Jsn.ser (Jsn.arr ts)).length - (16 + pre.length))
      = Jsn.ser (Jsn.arr ts) := by
    rw [hdrop2, show 16 + pre.length + (Jsn.ser (Jsn.arr ts)).length - (16 + pre.length)
      = (Jsn.ser (Jsn.arr ts)).length by omega]
    exact List.take_left _ _
  have hparse : parseJson (String.mk (Jsn.ser (Jsn.arr ts))) = some (Jsn.arr ts) :=
    parseJson_ser (Jsn.arr ts) hwf
  rw [extractCaptionTracks]
  rw [show (String.mk (pre ++ ("\"captionTracks\":".data
      ++ (Jsn.ser (Jsn.arr ts) ++ suf)))).data
    = pre ++ ("\"captionTracks\":".data ++ (Jsn.ser (Jsn.arr ts) ++ suf)) from rfl]
  simp only [hmarker, hchar, hscan, htake, hparse]
  rw [if_pos (List.length_pos.mpr hne)]

/-- A concrete track list whose first object holds a nested array and a
nested object, exercising the balanced-bracket scan past inner brackets. -/
def c3Tracks : List Jsn :=
  [Jsn.obj [("baseUrl", Jsn.str "https://a"),
            ("name", Jsn.obj [("runs", Jsn.arr [Jsn.obj [("text", Jsn.str "English")]])]),
            ("languageCode", Jsn.str "en")],
   Jsn.obj [("baseUrl", Jsn.str "https://b"),
            ("languageCode", Jsn.str "es"),
            ("kind", Jsn.str "asr")]]

/-- The resolver theorem instantiated on a concrete nested payload. -/
theorem C3_resolver_balanced_scan_witness :
    (c3Tracks ≠ [] ∧ wfList c3Tracks = true
      ∧ (Jsn.ser (Jsn.arr c3Tracks)).length ≤ 50000
      ∧ ∀ i < ("var x = 1; ".data).length,
          ¬ ("\"captionTracks\":[".data).isPrefixOf
            (("var x = 1; ".data ++ ("\"captionTracks\":".data
              ++ (Jsn.ser (Jsn.arr c3Tracks) ++ ",\"rest\":true".data))).drop i) = true)
    ∧ extractCaptionTracks (String.mk ("var x = 1; ".data
        ++ ("\"captionTracks\":".data
          ++ (Jsn.ser (Jsn.arr c3Tracks) ++ ",\"rest\":true".data))))
        = c3Tracks :=
  ⟨⟨List.cons_ne_nil _ _, rfl, by decide, by decide⟩,
   C3_resolver_balanced_scan "var x = 1; ".data ",\"rest\":true".data c3Tracks
     (List.cons_ne_nil _ _) rfl (by decide) (by decide)⟩

/-- C9: the resolver is a total function into `List Jsn` — failure is the
empty list, never an exception.  When neither extraction method finds its
anchor (no caption-track marker, no player-response assignment) the result
is `[]`; a payload whose marker is followed by unparseable data also yields
`[]` (the balanced scan never closes), as does the empty document. -/
theorem C9_resolver_total :
    (∀ html : String, findSub ("\"captionTracks\":[".data) html.data = none →
      findPR html.data = none → extractCaptionTracks html = [])
    ∧ extractCaptionTracks "\"captionTracks\":[oops" = []
    ∧ extractCaptionTracks "" = [] := by
  refine ⟨?_, rfl, rfl⟩
  intro html h1 h2
  rw [extractCaptionTracks]
  simp only [h1, h2]

/-- The totality theorem applied to a concrete anchor-free document. -/
theorem C9_resolver_total_witness :
    (findSub ("\"captionTracks\":[".data) "no captions here".data = none
      ∧ findPR "no captions here".data = none)
    ∧ extractCaptionTracks "no captions here" = [] :=
  ⟨⟨by decide, by decide⟩,
   C9_resolver_total.1 "no captions here" (by decide) (by decide)⟩

end YtIntel
